import Mathlib

/-!
Verification of the TRM_MAPF trajectory-statistics core.

This file embeds the algorithms of `src/praw/stats_wait_collision.py`,
`src/praw/parse_paths.py`, `scripts/03_aggregate_p_raw.py` and
`scripts/04_export_heatmap_bin.py` as executable Lean definitions and proves
the testable properties of the specification about them.

Conventions mirroring the numpy code:
* a 2-D array of shape H×W is a total function `Nat → Nat → α` indexed `a y x`
  (the numpy index order `a[y, x]`); its shape travels separately as `H W`;
* grid coordinates appearing in trajectories are `Int × Int` pairs `(x, y)`
  exactly as in the Python tuples;
* the sentinel `INF = 10^9` is the one used by the source.
-/

set_option maxHeartbeats 1000000

namespace TRM

/-- The INF sentinel `10**9` used by `_bfs_dist` and `_first_reach_times`. -/
def INF : Nat := 10 ^ 9

/-- Pointwise array write `a[y0, x0] = v` on a field `Nat → Nat → Nat`. -/
def updD (m : Nat → Nat → Nat) (y0 x0 v : Nat) : Nat → Nat → Nat :=
  fun y x => if y = y0 ∧ x = x0 then v else m y x

/-- The increment `a[y0, x0] += 1` used by the heatmap loops. -/
def bump (m : Nat → Nat → Nat) (y0 x0 : Nat) : Nat → Nat → Nat :=
  updD m y0 x0 (m y0 x0 + 1)

/-- Spatial sum of an H×W count array (`np.sum`). -/
def gridSum (H W : Nat) (m : Nat → Nat → Nat) : Nat :=
  ∑ y ∈ Finset.range H, ∑ x ∈ Finset.range W, m y x

/-!
## `_bfs_dist`: 4-neighbour BFS distance-to-goal

The Python function keeps a FIFO deque and a distance array, relaxing the four
neighbours `(x-1,y), (x+1,y), (x,y-1), (x,y+1)` of the popped cell in this
order.  We model the deque as a list (pop head / append tail) and the loop by
fuel; the fuel chosen for `bfs_dist` is proved sufficient below, so the loop
always drains the queue exactly as the Python `while q:` loop does.
-/

/-- Distance array together with the pending FIFO queue of `_bfs_dist`. -/
structure DQ where
  dist : Nat → Nat → Nat
  q : List (Nat × Nat)

/-- One conditional relaxation
`if <bound ok> and not obstacles[ny, nx] and dist[ny, nx] > d: set and append`. -/
def relax (obst : Nat → Nat → Bool) (cond : Bool) (nx ny d : Nat) (s : DQ) : DQ :=
  if cond ∧ obst ny nx = false ∧ d < s.dist ny nx then
    ⟨updD s.dist ny nx d, s.q ++ [(nx, ny)]⟩
  else s

/-- One iteration of the `while q:` loop: pop the front cell and relax its four
neighbours in the source order left, right, up, down. -/
def bfsStep (obst : Nat → Nat → Bool) (W H : Nat) (s : DQ) : DQ :=
  match s.q with
  | [] => s
  | (x, y) :: rest =>
    let d := s.dist y x + 1
    let s0 : DQ := ⟨s.dist, rest⟩
    let s1 := relax obst (decide (0 < x)) (x - 1) y d s0
    let s2 := relax obst (decide (x + 1 < W)) (x + 1) y d s1
    let s3 := relax obst (decide (0 < y)) x (y - 1) d s2
    relax obst (decide (y + 1 < H)) x (y + 1) d s3

/-- The `while q:` loop, run with fuel (proved sufficient for the fuel used by
`bfs_dist`). -/
def bfsLoop (obst : Nat → Nat → Bool) (W H : Nat) : Nat → DQ → DQ
  | 0, s => s
  | fuel + 1, s =>
    match s.q with
    | [] => s
    | _ :: _ => bfsLoop obst W H fuel (bfsStep obst W H s)

/-- Initial state of the BFS: all-INF distances except `dist[gy, gx] = 0`, and
the queue holding the goal. -/
def bfsInit (gx gy : Nat) : DQ :=
  ⟨updD (fun _ _ => INF) gy gx 0, [(gx, gy)]⟩

/-- Fuel that is proved to drain the queue: one unit per reachable loop
iteration plus slack. -/
def bfsFuel (H W : Nat) : Nat := H * W * INF + 2

/-- The BFS proper, on a goal already known to be in bounds and free. -/
def bfsDistNat (obst : Nat → Nat → Bool) (H W gx gy : Nat) : Nat → Nat → Nat :=
  (bfsLoop obst W H (bfsFuel H W) (bfsInit gx gy)).dist

/-- `_bfs_dist(obstacles, goal)` with `goal = (gx, gy)` of `Int` coordinates:
returns the all-INF field when the goal is out of bounds or on an obstacle,
otherwise runs the BFS. -/
def bfs_dist (obst : Nat → Nat → Bool) (H W : Nat) (goal : Int × Int) :
    Nat → Nat → Nat :=
  if 0 ≤ goal.1 ∧ goal.1 < (W : Int) ∧ 0 ≤ goal.2 ∧ goal.2 < (H : Int) then
    if obst goal.2.toNat goal.1.toNat then fun _ _ => INF
    else bfsDistNat obst H W goal.1.toNat goal.2.toNat
  else fun _ _ => INF

/-- 4-adjacency of grid cells `(x, y)`, stated over `Nat` coordinates. -/
def Adj (a b : Nat × Nat) : Prop :=
  (b.1 = a.1 + 1 ∧ b.2 = a.2) ∨ (a.1 = b.1 + 1 ∧ b.2 = a.2) ∨
  (b.1 = a.1 ∧ b.2 = a.2 + 1) ∨ (b.1 = a.1 ∧ a.2 = b.2 + 1)

/-- Reachability from the goal cell through in-bounds obstacle-free cells
(obstacle status of the start itself is the caller's concern, as in the
source). -/
inductive Reach (obst : Nat → Nat → Bool) (W H : Nat) (g : Nat × Nat) :
    Nat × Nat → Prop where
  | base : Reach obst W H g g
  | step {b c : Nat × Nat} : Reach obst W H g b → Adj b c → c.1 < W → c.2 < H →
      obst c.2 c.1 = false → Reach obst W H g c

/-- The part of the BFS loop invariant that every single relaxation preserves:
the goal cell is pinned at 0, distances are bounded by INF and INF outside the
grid, finite cells are free, reachable from the goal, and (goal apart) have a
free neighbour at strictly smaller recorded distance, and queue members are
free in-bounds reachable cells. -/
structure CoreInv (obst : Nat → Nat → Bool) (W H gx gy : Nat) (s : DQ) : Prop where
  pin : s.dist gy gx = 0
  leInf : ∀ y x, s.dist y x ≤ INF
  outInf : ∀ y x, ¬(x < W ∧ y < H) → s.dist y x = INF
  finFree : ∀ y x, s.dist y x < INF → x < W ∧ y < H ∧ obst y x = false
  finReach : ∀ y x, s.dist y x < INF → Reach obst W H (gx, gy) (x, y)
  pred : ∀ y x, s.dist y x < INF → ¬(x = gx ∧ y = gy) →
    ∃ b : Nat × Nat, Adj (x, y) b ∧ b.1 < W ∧ b.2 < H ∧ obst b.2 b.1 = false ∧
      s.dist b.2 b.1 + 1 ≤ s.dist y x
  qmem : ∀ c ∈ s.q, c.1 < W ∧ c.2 < H ∧ obst c.2 c.1 = false ∧
    Reach obst W H (gx, gy) c

/-- The full invariant: the core plus local stability at every free cell not
pending in the queue. -/
structure BfsInv (obst : Nat → Nat → Bool) (W H gx gy : Nat) (s : DQ) : Prop where
  core : CoreInv obst W H gx gy s
  stab : ∀ u : Nat × Nat, u.1 < W → u.2 < H → obst u.2 u.1 = false → u ∉ s.q →
    ∀ v : Nat × Nat, Adj u v → v.1 < W → v.2 < H → obst v.2 v.1 = false →
      s.dist v.2 v.1 ≤ s.dist u.2 u.1 + 1

/-!
## Trajectory statistics (`compute_wait_collision_heatmaps`,
`_first_reach_times`, `summarize_run_metrics`)
-/

/-- `paths[t][i]`: position of agent `i` at timestep `t` (time-major table). -/
def pathPos (paths : List (List (Int × Int))) (t i : Nat) : Int × Int :=
  (paths.getD t []).getD i (0, 0)

/-- `len(paths[0]) if T > 0 else 0`, the guarded agent count used by
`_first_reach_times` and `summarize_run_metrics`. -/
def num_agents (paths : List (List (Int × Int))) : Nat :=
  if 0 < paths.length then (paths.getD 0 []).length else 0

/-- `_first_reach_times`: first timestep each agent reaches its goal, else the
INF sentinel. -/
def first_reach_times (paths : List (List (Int × Int)))
    (goals : List (Int × Int)) : List Nat :=
  (List.range (num_agents paths)).map
    (fun i =>
      match (List.range paths.length).find?
          (fun t => decide (pathPos paths t i = goals.getD i (0, 0))) with
      | some t => t
      | none => INF)

/-- The fixed neighbour order `[(1,0), (-1,0), (0,1), (0,-1)]` of the source. -/
def nbs : List (Int × Int) := [(1, 0), (-1, 0), (0, 1), (0, -1)]

/-- The in-bounds check `0 <= x < W and 0 <= y < H` on an `Int` pair. -/
def inb (W H : Nat) (c : Int × Int) : Prop :=
  0 ≤ c.1 ∧ c.1 < (W : Int) ∧ 0 ≤ c.2 ∧ c.2 < (H : Int)

instance inbDec (W H : Nat) (c : Int × Int) : Decidable (inb W H c) := by
  unfold inb
  exact inferInstance

/-- One neighbour update of the intended-move selection. -/
def intendStep (dist : Nat → Nat → Nat) (obst : Nat → Nat → Bool) (W H : Nat)
    (cur : Int × Int) (st : (Int × Int) × Nat) (dxy : Int × Int) :
    (Int × Int) × Nat :=
  if inb W H (cur.1 + dxy.1, cur.2 + dxy.2) ∧
      obst (cur.2 + dxy.2).toNat (cur.1 + dxy.1).toNat = false then
    if dist (cur.2 + dxy.2).toNat (cur.1 + dxy.1).toNat < st.2 then
      ((cur.1 + dxy.1, cur.2 + dxy.2),
        dist (cur.2 + dxy.2).toNat (cur.1 + dxy.1).toNat)
    else st
  else st

/-- The intended-move fold of `compute_wait_collision_heatmaps`: walk the four
neighbours in order, keeping the first strict improvement over the current
best distance. -/
def intendFold (dist : Nat → Nat → Nat) (obst : Nat → Nat → Bool) (W H : Nat)
    (cur : Int × Int) (dcur : Nat) : (Int × Int) × Nat :=
  nbs.foldl (intendStep dist obst W H cur) (cur, dcur)

/-- Mutable state of the wait/blocking-pressure loop. -/
structure HMState where
  wait : Nat → Nat → Nat
  coll : Nat → Nat → Nat
  total_wait : Nat
  total_blocked : Nat

/-- The wait-count part of one loop iteration: if the agent stayed, increment
`wait_map` at the current cell when it is in bounds, and increment the
run-level `total_wait` counter unconditionally (the source puts the counter
outside the bounds check). -/
def hmWait (W H : Nat) (cur nxt : Int × Int) (s : HMState) : HMState :=
  if nxt = cur then
    { (if inb W H cur then { s with wait := bump s.wait cur.2.toNat cur.1.toNat }
       else s) with total_wait := s.total_wait + 1 }
  else s

/-- The blocking-pressure part of one loop iteration: skip when the current
cell is out of bounds, on an obstacle, or at INF distance; otherwise compute
the intended cell and, if the agent intended to move but stayed, credit the
intended cell and bump `total_blocked`. -/
def hmPressure (W H : Nat) (obst : Nat → Nat → Bool) (cur nxt : Int × Int)
    (dist : Nat → Nat → Nat) (s : HMState) : HMState :=
  if ¬ inb W H cur then s
  else if obst cur.2.toNat cur.1.toNat then s
  else if INF ≤ dist cur.2.toNat cur.1.toNat then s
  else if (intendFold dist obst W H cur (dist cur.2.toNat cur.1.toNat)).1 ≠ cur ∧
      nxt = cur then
    { s with
      coll := bump s.coll
        (intendFold dist obst W H cur (dist cur.2.toNat cur.1.toNat)).1.2.toNat
        (intendFold dist obst W H cur (dist cur.2.toNat cur.1.toNat)).1.1.toNat,
      total_blocked := s.total_blocked + 1 }
  else s

/-- The body of the wait + blocking-pressure loop for one `(t, agent)` pair,
exactly as in the source: the goal-camping skip, the wait-count update, then
the BFS-intention blocking-pressure update. -/
def hmStep (W H : Nat) (obst : Nat → Nat → Bool)
    (paths : List (List (Int × Int))) (goals : List (Int × Int))
    (reach : List Nat) (t i : Nat) (s : HMState) : HMState :=
  if reach.getD i 0 ≤ t then s
  else
    hmPressure W H obst (pathPos paths t i) (pathPos paths (t + 1) i)
      (bfs_dist obst H W (goals.getD i (0, 0)))
      (hmWait W H (pathPos paths t i) (pathPos paths (t + 1) i) s)

/-- The body of the occupancy loop for one `(t, agent)` pair: count the visit
when the agent has not yet passed its reach time and is in bounds. -/
def occStep (W H : Nat) (paths : List (List (Int × Int))) (reach : List Nat)
    (t i : Nat) (occ : Nat → Nat → Nat) : Nat → Nat → Nat :=
  if reach.getD i 0 < t then occ
  else if inb W H (pathPos paths t i) then
    bump occ (pathPos paths t i).2.toNat (pathPos paths t i).1.toNat
  else occ

/-- Result bundle of `compute_wait_collision_heatmaps` (maps plus details). -/
structure HMResult where
  wait_map : Nat → Nat → Nat
  collision_map : Nat → Nat → Nat
  occupancy_map : Nat → Nat → Nat
  T : Nat
  N : Nat
  reach_t : List Nat
  total_wait : Nat
  total_blocked : Nat

/-- The occupancy double loop (`for t in range(T): for i in range(N)`). -/
def occFold (paths : List (List (Int × Int))) (goals : List (Int × Int))
    (H W : Nat) : Nat → Nat → Nat :=
  (List.range paths.length).foldl
    (fun a t => (List.range ((paths.getD 0 []).length)).foldl
      (fun a i => occStep W H paths (first_reach_times paths goals) t i a) a)
    (fun _ _ => 0)

/-- The wait + blocking-pressure double loop
(`for t in range(T - 1): for i in range(N)`). -/
def hmFold (paths : List (List (Int × Int))) (goals : List (Int × Int))
    (H W : Nat) (obst : Nat → Nat → Bool) : HMState :=
  (List.range (paths.length - 1)).foldl
    (fun a t => (List.range ((paths.getD 0 []).length)).foldl
      (fun a i => hmStep W H obst paths goals
        (first_reach_times paths goals) t i a) a)
    ⟨fun _ _ => 0, fun _ _ => 0, 0, 0⟩

/-- The two nested loops of `compute_wait_collision_heatmaps`, after its input
validation. -/
def computeCore (paths : List (List (Int × Int))) (goals : List (Int × Int))
    (H W : Nat) (obst : Nat → Nat → Bool) : HMResult :=
  { wait_map := (hmFold paths goals H W obst).wait,
    collision_map := (hmFold paths goals H W obst).coll,
    occupancy_map := occFold paths goals H W,
    T := paths.length, N := (paths.getD 0 []).length,
    reach_t := first_reach_times paths goals,
    total_wait := (hmFold paths goals H W obst).total_wait,
    total_blocked := (hmFold paths goals H W obst).total_blocked }

/-- `compute_wait_collision_heatmaps` with its two `raise` checks. -/
def compute_wait_collision_heatmaps (paths : List (List (Int × Int)))
    (goals : List (Int × Int)) (H W : Nat) (obst : Nat → Nat → Bool) :
    Except String HMResult :=
  if paths.length = 0 then Except.error "Empty paths"
  else if goals.length ≠ (paths.getD 0 []).length then
    Except.error "goals size mismatch"
  else Except.ok (computeCore paths goals H W obst)

/-- The metrics dictionary of `summarize_run_metrics` (the float `runtime_s`
pass-through field is omitted: it is copied verbatim from the argument). -/
structure RunMetrics where
  num_agents : Nat
  makespan : Int
  solved : Nat
  reached_agents : Nat
  total_wait : Nat
  total_collision : Nat
  solver_rc : Int

/-- `summarize_run_metrics(paths, goals, wait_map, collision_map, runtime_s,
solver_rc)`; the numpy arrays carry their H×W shape implicitly, made explicit
here as parameters for the `np.sum` calls. -/
def summarize_run_metrics (H W : Nat) (paths : List (List (Int × Int)))
    (goals : List (Int × Int)) (wait_map coll_map : Nat → Nat → Nat)
    (solver_rc : Int) : RunMetrics :=
  { num_agents := num_agents paths,
    makespan := (paths.length : Int) - 1,
    solved :=
      if (first_reach_times paths goals).countP (fun t => decide (t < INF)) =
          num_agents paths ∧ solver_rc = 0 then 1 else 0,
    reached_agents :=
      (first_reach_times paths goals).countP (fun t => decide (t < INF)),
    total_wait := gridSum H W wait_map,
    total_collision := gridSum H W coll_map, solver_rc := solver_rc }

/-!
## The intended move is the first strictly closer neighbour
-/

/-- Modelled from the spec's wording (§4.4): among the four neighbours in the
fixed order, the FIRST one that is in bounds, obstacle-free and strictly
closer to the goal than the current cell; `none` when no neighbour is
strictly closer. -/
def firstStrictlyCloser (dist : Nat → Nat → Nat) (obst : Nat → Nat → Bool)
    (W H : Nat) (cur : Int × Int) (dcur : Nat) : Option (Int × Int) :=
  (nbs.map (fun dxy => (cur.1 + dxy.1, cur.2 + dxy.2))).find?
    (fun nb => decide (inb W H nb ∧ obst nb.2.toNat nb.1.toNat = false ∧
      dist nb.2.toNat nb.1.toNat < dcur))

/-- The obstacle-free mask used by concrete check instances. -/
def obstFree : Nat → Nat → Bool := fun _ _ => false

/-- The 3×3 two-agent scenario of the specification (§8). -/
def demoPaths : List (List (Int × Int)) :=
  [[(0, 0), (0, 2)], [(1, 0), (0, 2)], [(1, 1), (0, 2)],
   [(2, 1), (0, 2)], [(2, 2), (0, 2)]]

/-- Goals of the 3×3 two-agent scenario. -/
def demoGoals : List (Int × Int) := [(2, 2), (0, 0)]

/-!
## Binary export (`scripts/04_export_heatmap_bin.py`)

Float32 values are modelled by their IEEE-754 bit patterns (`Nat < 2^32`);
`ensure_c_f32` is the identity at this level.  `tobytes(order="C")` serialises
row-major, four little-endian bytes per element; `np.fromfile(dtype="<f4")`
reads the bytes back four at a time.  `np.allclose(p, p2, rtol=0, atol=0)` is
elementwise IEEE equality: NaN compares unequal to everything (itself
included) and +0.0 equals -0.0.
-/

/-- Little-endian bytes of one float32 word. -/
def f32LEBytes (w : Nat) : List Nat :=
  [w % 256, w / 256 % 256, w / 65536 % 256, w / 16777216 % 256]

/-- `p.tobytes(order="C")`: row-major concatenation, 4 bytes per element. -/
def tobytesRows (p : List (List Nat)) : List Nat :=
  (p.flatMap id).flatMap f32LEBytes

/-- Recompose a little-endian word from four bytes. -/
def leWord (b0 b1 b2 b3 : Nat) : Nat :=
  b0 + 256 * b1 + 65536 * b2 + 16777216 * b3

/-- `np.fromfile(dtype="<f4")`: group the byte stream four at a time
(truncating a trailing partial element). -/
def wordsOfBytes : List Nat → List Nat
  | b0 :: b1 :: b2 :: b3 :: rest => leWord b0 b1 b2 b3 :: wordsOfBytes rest
  | _ => []

/-- `raw.reshape((H, W))`. -/
def reshape (H W : Nat) (l : List Nat) : List (List Nat) :=
  (List.range H).map (fun y => (List.range W).map (fun x => l.getD (y * W + x) 0))

/-- Exponent field of a float32 bit pattern. -/
def f32Exp (w : Nat) : Nat := w / 2 ^ 23 % 256

/-- NaN: exponent all ones with a nonzero mantissa. -/
def f32IsNaN (w : Nat) : Bool :=
  decide (f32Exp w = 255) && decide (w % 2 ^ 23 ≠ 0)

/-- Finite value: exponent not all ones (excludes NaN and ±inf). -/
def f32IsFinite (w : Nat) : Prop := f32Exp w ≠ 255

instance f32IsFiniteDec (w : Nat) : Decidable (f32IsFinite w) := by
  unfold f32IsFinite
  exact inferInstance

/-- ±0.0. -/
def f32IsZero (w : Nat) : Bool := decide (w % 2 ^ 31 = 0)

/-- IEEE-754 equality on bit patterns (what `np.allclose(rtol=0, atol=0)`
tests per element). -/
def f32Eq (a b : Nat) : Bool :=
  !f32IsNaN a && !f32IsNaN b && (decide (a = b) || (f32IsZero a && f32IsZero b))

/-- Elementwise `np.allclose(xs, ys, rtol=0, atol=0)` on equal-size arrays. -/
def allcloseExact (xs ys : List Nat) : Bool :=
  (xs.zip ys).all (fun ab => f32Eq ab.1 ab.2)

/-- A file's content: the raw heatmap binary or the metadata sidecar (the
sidecar's statistics fields are float presentation data irrelevant to the
artifact-presence claims; its load-bearing content is the shape). -/
inductive FSContent where
  | bin (data : List Nat)
  | metaJson (height width : Nat)
deriving DecidableEq

/-- The destination directory: newest write first. -/
abbrev FS := List (String × FSContent)

def fsWrite (fs : FS) (name : String) (c : FSContent) : FS := (name, c) :: fs

def fsLookup (fs : FS) (name : String) : Option FSContent :=
  (fs.find? (fun e => e.1 == name)).map (·.2)

def fsReadBin (fs : FS) (name : String) : List Nat :=
  match fsLookup fs name with
  | some (FSContent.bin d) => d
  | _ => []

/-- The directory contents after `export_one` has written the binary and the
metadata sidecar (newest first). -/
def exportFS (fs : FS) (p : List (List Nat)) (H W : Nat) : FS :=
  fsWrite (fsWrite fs "heatmap.f32.bin" (FSContent.bin (tobytesRows p)))
    "heatmap.meta.json" (FSContent.metaJson H W)

/-- The write/verify tail of `export_one`: write `heatmap.f32.bin`, write
`heatmap.meta.json`, read the binary back and verify, in the source's
order. -/
def exportWrite (fs : FS) (p : List (List Nat)) (H W : Nat) :
    FS × Except String Unit :=
  if (wordsOfBytes (fsReadBin (exportFS fs p H W) "heatmap.f32.bin")).length ≠
      H * W then
    (exportFS fs p H W, Except.error "binary size mismatch")
  else if allcloseExact (p.flatMap id)
      ((reshape H W (wordsOfBytes
        (fsReadBin (exportFS fs p H W) "heatmap.f32.bin"))).flatMap id) then
    (exportFS fs p H W, Except.ok ())
  else (exportFS fs p H W, Except.error "roundtrip verification failed")

/-- `export_one(npy_path, map_path, out_dir, variant)` after loading: `p` is
the 2-D float32 array (bit patterns), `mapDims` the optional `.map` header
dimensions used for the sanity check. -/
def export_one (fs : FS) (p : List (List Nat)) (mapDims : Option (Nat × Nat)) :
    FS × Except String Unit :=
  match mapDims with
  | some (mh, mw) =>
    if mh ≠ p.length ∨ mw ≠ (p.headD []).length then
      (fs, Except.error "shape mismatch")
    else exportWrite fs p p.length (p.headD []).length
  | none => exportWrite fs p p.length (p.headD []).length

/-!
## `parse_output_txt` (`src/praw/parse_paths.py`)

A line is matched against `^\s*(\d+)\s*:\s*(.*)\s*$` and its remainder
scanned with `findall` of `\(\s*(-?\d+)\s*,\s*(-?\d+)\s*\)`.  Both are
implemented below over `List Char`.
-/

/-- Python's `\s` class. -/
def isSpacePy (c : Char) : Bool :=
  c == ' ' || c == '\t' || c == '\n' || c == '\r' ||
    c == Char.ofNat 11 || c == Char.ofNat 12

/-- Decimal value of a digit run. -/
def natOfDigits (ds : List Char) : Nat :=
  ds.foldl (fun n c => 10 * n + (c.toNat - 48)) 0

/-- Match `^\s*(\d+)\s*:\s*(.*)\s*$`, returning the timestep and the line
remainder after the colon (the greedy `(.*)` takes everything up to the end
of the line). -/
def tlineMatch (l : List Char) : Option (Nat × List Char) :=
  let l1 := l.dropWhile isSpacePy
  let ds := l1.takeWhile (fun c => c.isDigit)
  if ds.isEmpty then none
  else
    match (l1.dropWhile (fun c => c.isDigit)).dropWhile isSpacePy with
    | ':' :: rest => some (natOfDigits ds, rest.dropWhile isSpacePy)
    | _ => none

/-- Signed decimal value. -/
def intOfSignDigits (neg : Bool) (ds : List Char) : Int :=
  if neg then -(natOfDigits ds : Int) else (natOfDigits ds : Int)

/-- Attempt `\s*(-?\d+)\s*,\s*(-?\d+)\s*\)` on the characters following an
opening parenthesis; on success return the pair and the remaining input. -/
def tryPair (l : List Char) : Option ((Int × Int) × List Char) :=
  let l1 := l.dropWhile isSpacePy
  let s1 := match l1 with
    | '-' :: r => (true, r)
    | _ => (false, l1)
  let ds1 := s1.2.takeWhile (fun c => c.isDigit)
  if ds1.isEmpty then none
  else
    match (s1.2.dropWhile (fun c => c.isDigit)).dropWhile isSpacePy with
    | ',' :: l4 =>
      let l5 := l4.dropWhile isSpacePy
      let s2 := match l5 with
        | '-' :: r => (true, r)
        | _ => (false, l5)
      let ds2 := s2.2.takeWhile (fun c => c.isDigit)
      if ds2.isEmpty then none
      else
        match (s2.2.dropWhile (fun c => c.isDigit)).dropWhile isSpacePy with
        | ')' :: rest =>
          some ((intOfSignDigits s1.1 ds1, intOfSignDigits s2.1 ds2), rest)
        | _ => none
    | _ => none

/-- `findall` scan: attempt the pair pattern at each `(`, emitting
non-overlapping matches left to right, else advance one character.  Each
iteration consumes at least one character, so `fuel = length` never runs
out. -/
def xyFindallGo : Nat → List Char → List (Int × Int)
  | 0, _ => []
  | _, [] => []
  | fuel + 1, c :: rest =>
    if c = '(' then
      match tryPair rest with
      | some (pr, rem) => pr :: xyFindallGo fuel rem
      | none => xyFindallGo fuel rest
    else xyFindallGo fuel rest

/-- `_XY_RE.findall` over a line remainder. -/
def xyFindall (l : List Char) : List (Int × Int) := xyFindallGo l.length l

/-- The `ValueError`s of `parse_output_txt`, carrying the context their
messages report. -/
inductive ParseErr where
  | agentCountMismatch (t got expected : Nat)
  | noSolutionLines
  | nonIncreasing (prev cur : Nat)
  | inconsistentAgentCount (first now : Nat)
deriving DecidableEq

/-- Accept a line: it must match the timestep pattern and contain at least
one coordinate pair (the two `continue`s of the loop). -/
def lineAccept (ln : List Char) : Option (Nat × List (Int × Int)) :=
  match tlineMatch ln with
  | none => none
  | some (t, body) =>
    if (xyFindall body).isEmpty then none
    else some (t, xyFindall body)

/-- The line loop of `parse_output_txt`: accept lines in order; with an
expected agent count, a mismatching accepted line raises immediately
(reporting its timestep). -/
def parseLoop (expected : Option Nat) :
    List (List Char) → Except ParseErr (List (Nat × List (Int × Int)))
  | [] => Except.ok []
  | ln :: rest =>
    match lineAccept ln with
    | none => parseLoop expected rest
    | some (t, xy) =>
      match expected with
      | some n =>
        if xy.length ≠ n then
          Except.error (ParseErr.agentCountMismatch t xy.length n)
        else (parseLoop expected rest).map (fun acc => (t, xy) :: acc)
      | none => (parseLoop expected rest).map (fun acc => (t, xy) :: acc)

/-- First adjacent non-increasing pair of timesteps, as scanned by the
post-loop check. -/
def findNonInc : Nat → List Nat → Option (Nat × Nat)
  | _, [] => none
  | prev, t :: rest => if t ≤ prev then some (prev, t) else findNonInc t rest

def checkIncreasing : List Nat → Option (Nat × Nat)
  | [] => none
  | t0 :: rest => findNonInc t0 rest

/-- The dictionary returned by `parse_output_txt`. -/
structure ParsedOutput where
  timesteps : List Nat
  positions_by_t : List (List (Int × Int))
  paths : List (List (Int × Int))
  num_agents : Nat
  makespan : Nat
deriving DecidableEq

/-- `parse_output_txt(output_txt, expected_num_agents)` on the list of text
lines: run the accepting loop (with its per-line count check), then the
no-solution-lines check, then the strictly-increasing check, then build the
per-agent paths with the cross-timestep consistency check. -/
def parse_output_txt (lines : List (List Char)) (expected : Option Nat) :
    Except ParseErr ParsedOutput :=
  match parseLoop expected lines with
  | Except.error e => Except.error e
  | Except.ok acc =>
    if acc.isEmpty then Except.error ParseErr.noSolutionLines
    else
      match checkIncreasing (acc.map (fun p => p.1)) with
      | some pr => Except.error (ParseErr.nonIncreasing pr.1 pr.2)
      | none =>
        match expected with
        | some n =>
          match acc.find? (fun p => p.2.length ≠ n) with
          | some p => Except.error (ParseErr.inconsistentAgentCount n p.2.length)
          | none =>
            Except.ok
              { timesteps := acc.map (fun p => p.1),
                positions_by_t := acc.map (fun p => p.2),
                paths := (List.range n).map
                  (fun a => acc.map (fun p => p.2.getD a (0, 0))),
                num_agents := n,
                makespan := (acc.map (fun p => p.1)).getLastD 0 }
        | none =>
          match acc.find?
              (fun p => p.2.length ≠ (acc.headD (0, [])).2.length) with
          | some p => Except.error (ParseErr.inconsistentAgentCount
              (acc.headD (0, [])).2.length p.2.length)
          | none =>
            Except.ok
              { timesteps := acc.map (fun p => p.1),
                positions_by_t := acc.map (fun p => p.2),
                paths := (List.range ((acc.headD (0, [])).2.length)).map
                  (fun a => acc.map (fun p => p.2.getD a (0, 0))),
                num_agents := (acc.headD (0, [])).2.length,
                makespan := (acc.map (fun p => p.1)).getLastD 0 }

/-- The three-line input used to separate the two validations: the first two
accepted lines repeat timestep 0 (a strictly-increasing violation), the third
has two pairs instead of one (an agent-count violation). -/
def c7Lines : List (List Char) :=
  ["0:(0,0)", "0:(0,0)", "1:(0,0),(1,1)"].map String.toList

/-!
## Aggregation (`scripts/03_aggregate_p_raw.py`)

The per-run arrays are loaded as numpy int64 (`astype(np.int64)`) and summed
elementwise with `+=`; int64 cells are modelled as `ZMod (2^64)` (numpy
int64 addition wraps).
-/

/-- An int64 cell value. -/
abbrev I64 := ZMod (2 ^ 64)

/-- One run's npz bundle plus its optional `.meta.json` sidecar (`meta` is
`some solvedflag` when the sidecar file exists and `none` when missing). -/
structure RunNpz where
  meta : Option Bool
  wait : Nat → Nat → I64
  pressure : Nat → Nat → I64
  occ : Nat → Nat → I64
  Hnpz : Nat
  Wnpz : Nat
  makespan : Int

/-- Accumulator of the aggregation loop. -/
structure AggState where
  wait_sum : Nat → Nat → I64
  pressure_sum : Nat → Nat → I64
  occ_sum : Nat → Nat → I64
  solved_cnt : Nat
  makespans : List Int
  used : Nat

/-- The `wait_sum += d["wait"]; ...; makespans.append(...); used.append(...)`
block. -/
def addRun (s : AggState) (r : RunNpz) : AggState :=
  { s with
    wait_sum := fun y x => s.wait_sum y x + r.wait y x,
    pressure_sum := fun y x => s.pressure_sum y x + r.pressure y x,
    occ_sum := fun y x => s.occ_sum y x + r.occ y x,
    makespans := s.makespans ++ [r.makespan],
    used := s.used + 1 }

/-- The body of `main`'s loop over npz files: consult the sidecar only when
it exists (counting solved runs and applying the `only_solved` filter), then
check the run's shape against the accumulator and fold the arrays in. -/
def aggLoop (onlySolved : Bool) (H W : Nat) :
    List RunNpz → AggState → Except String AggState
  | [], s => Except.ok s
  | r :: rs, s =>
    match r.meta with
    | some solved =>
      if onlySolved && !solved then
        aggLoop onlySolved H W rs
          (if solved then { s with solved_cnt := s.solved_cnt + 1 } else s)
      else if r.Hnpz ≠ H ∨ r.Wnpz ≠ W then Except.error "Shape mismatch"
      else aggLoop onlySolved H W rs
        (addRun (if solved then { s with solved_cnt := s.solved_cnt + 1 }
          else s) r)
    | none =>
      if r.Hnpz ≠ H ∨ r.Wnpz ≠ W then Except.error "Shape mismatch"
      else aggLoop onlySolved H W rs (addRun s r)

/-- Whether the loop folds a run's arrays into the sums: always when the
sidecar is missing, otherwise unless `only_solved` filters it out. -/
def keepRun (onlySolved : Bool) (r : RunNpz) : Bool :=
  match r.meta with
  | none => true
  | some b => !(onlySolved && !b)

/-- The triple of per-run count arrays (wait, pressure, occupancy). -/
abbrev RunArrays :=
  (Nat → Nat → I64) × (Nat → Nat → I64) × (Nat → Nat → I64)

/-- Elementwise `+=` on the three running sums. -/
def addArrays (s d : RunArrays) : RunArrays :=
  (fun y x => s.1 y x + d.1 y x,
   fun y x => s.2.1 y x + d.2.1 y x,
   fun y x => s.2.2 y x + d.2.2 y x)

/-- Folding a list of per-run array triples into the zero sums, as the
aggregation loop does. -/
def foldRuns (l : List RunArrays) : RunArrays :=
  l.foldl addArrays (fun _ _ => 0, fun _ _ => 0, fun _ _ => 0)

/-- Fixture: the zero accumulator with a 1×1 shape. -/
def aggInit0 : AggState :=
  ⟨fun _ _ => 0, fun _ _ => 0, fun _ _ => 0, 0, [], 0⟩

/-- Fixture: a run whose `.meta.json` sidecar is missing. -/
def runNoMeta : RunNpz :=
  ⟨none, fun _ _ => 1, fun _ _ => 2, fun _ _ => 3, 1, 1, 4⟩

/-- Fixtures for the permutation check. -/
def arrA : RunArrays := (fun _ _ => 3, fun _ _ => 1, fun _ _ => 2)

def arrB : RunArrays := (fun _ _ => 5, fun _ _ => 7, fun _ _ => 11)

theorem updD_self (m : Nat → Nat → Nat) (y0 x0 v : Nat) :
    updD m y0 x0 v y0 x0 = v := by
  simp [updD]

theorem updD_other (m : Nat → Nat → Nat) (y0 x0 v y x : Nat)
    (h : ¬(y = y0 ∧ x = x0)) : updD m y0 x0 v y x = m y x := by
  simp [updD, h]

theorem gridSum_updD (H W : Nat) (m : Nat → Nat → Nat) (y0 x0 v : Nat)
    (hy : y0 < H) (hx : x0 < W) :
    gridSum H W (updD m y0 x0 v) + m y0 x0 = gridSum H W m + v := by
  classical
  have hyMem : y0 ∈ Finset.range H := Finset.mem_range.mpr hy
  have hxMem : x0 ∈ Finset.range W := Finset.mem_range.mpr hx
  unfold gridSum
  rw [← Finset.sum_erase_add (Finset.range H) _ hyMem,
      ← Finset.sum_erase_add (Finset.range H)
        (fun y => ∑ x ∈ Finset.range W, m y x) hyMem]
  have hrow : ∀ y ∈ (Finset.range H).erase y0,
      (∑ x ∈ Finset.range W, updD m y0 x0 v y x) = ∑ x ∈ Finset.range W, m y x := by
    intro y hyy
    refine Finset.sum_congr rfl ?_
    intro x _
    exact updD_other m y0 x0 v y x (by
      intro hcontra
      exact (Finset.mem_erase.mp hyy).1 hcontra.1)
  rw [Finset.sum_congr rfl hrow]
  have hinner :
      (∑ x ∈ Finset.range W, updD m y0 x0 v y0 x) + m y0 x0 =
      (∑ x ∈ Finset.range W, m y0 x) + v := by
    rw [← Finset.sum_erase_add (Finset.range W) _ hxMem,
        ← Finset.sum_erase_add (Finset.range W) (m y0) hxMem]
    have hcell : ∀ x ∈ (Finset.range W).erase x0,
        updD m y0 x0 v y0 x = m y0 x := by
      intro x hxx
      exact updD_other m y0 x0 v y0 x (by
        intro hcontra
        exact (Finset.mem_erase.mp hxx).1 hcontra.2)
    rw [Finset.sum_congr rfl hcell, updD_self]
    have heta : ((Finset.range W).erase x0).sum (m y0) =
        ∑ x ∈ (Finset.range W).erase x0, m y0 x := rfl
    rw [heta]
    omega
  omega

theorem gridSum_bump (H W : Nat) (m : Nat → Nat → Nat) (y0 x0 : Nat)
    (hy : y0 < H) (hx : x0 < W) :
    gridSum H W (bump m y0 x0) = gridSum H W m + 1 := by
  have h := gridSum_updD H W m y0 x0 (m y0 x0 + 1) hy hx
  unfold bump
  omega

theorem gridSum_le_of_bounded (H W : Nat) (m : Nat → Nat → Nat) (B : Nat)
    (h : ∀ y x, m y x ≤ B) : gridSum H W m ≤ H * W * B := by
  calc gridSum H W m ≤ ∑ _y ∈ Finset.range H, W * B := by
        refine Finset.sum_le_sum ?_
        intro y _
        calc (∑ x ∈ Finset.range W, m y x) ≤ ∑ _x ∈ Finset.range W, B :=
              Finset.sum_le_sum (fun x _ => h y x)
          _ = W * B := by simp [Finset.sum_const, Finset.card_range, mul_comm]
    _ = H * (W * B) := by simp [Finset.sum_const, Finset.card_range]
    _ = H * W * B := by ring

theorem Adj.symm {a b : Nat × Nat} (h : Adj a b) : Adj b a := by
  rcases h with h | h | h | h
  · exact Or.inr (Or.inl ⟨h.1.symm ▸ rfl, h.2.symm⟩)
  · exact Or.inl ⟨by omega, h.2.symm⟩
  · exact Or.inr (Or.inr (Or.inr ⟨h.1.symm, by omega⟩))
  · exact Or.inr (Or.inr (Or.inl ⟨h.1.symm, by omega⟩))

theorem Adj.ne {a b : Nat × Nat} (h : Adj a b) : a ≠ b := by
  rcases h with h | h | h | h <;>
    exact fun he => by rw [he] at h; omega

section RelaxLemmas

variable (obst : Nat → Nat → Bool) (cond : Bool) (nx ny d : Nat) (s : DQ)

theorem relax_cases :
    relax obst cond nx ny d s = s ∨
      (cond = true ∧ obst ny nx = false ∧ d < s.dist ny nx ∧
        relax obst cond nx ny d s = ⟨updD s.dist ny nx d, s.q ++ [(nx, ny)]⟩) := by
  unfold relax
  by_cases h : cond ∧ obst ny nx = false ∧ d < s.dist ny nx
  · exact Or.inr ⟨h.1, h.2.1, h.2.2, if_pos h⟩
  · exact Or.inl (if_neg h)

theorem relax_dist_mono (y x : Nat) :
    (relax obst cond nx ny d s).dist y x ≤ s.dist y x := by
  rcases relax_cases obst cond nx ny d s with h | ⟨_, _, hlt, h⟩
  · rw [h]
  · rw [h]
    by_cases hc : y = ny ∧ x = nx
    · simp only [updD, if_pos hc]
      rcases hc with ⟨hy, hx⟩
      subst hy; subst hx
      omega
    · simp only [updD, if_neg hc]
      exact le_refl _

theorem relax_dist_other (y x : Nat) (h : ¬(y = ny ∧ x = nx)) :
    (relax obst cond nx ny d s).dist y x = s.dist y x := by
  rcases relax_cases obst cond nx ny d s with he | ⟨_, _, _, he⟩
  · rw [he]
  · rw [he]
    exact updD_other _ _ _ _ _ _ h

theorem relax_dist_target :
    (relax obst cond nx ny d s).dist ny nx = s.dist ny nx ∨
      ((relax obst cond nx ny d s).dist ny nx = d ∧ d < s.dist ny nx ∧
        cond = true ∧ obst ny nx = false ∧
        (relax obst cond nx ny d s).q = s.q ++ [(nx, ny)]) := by
  rcases relax_cases obst cond nx ny d s with he | ⟨hc, ho, hlt, he⟩
  · rw [he]; exact Or.inl rfl
  · rw [he]
    exact Or.inr ⟨updD_self _ _ _ _, hlt, hc, ho, rfl⟩

theorem relax_dist_le_d (hc : cond = true) (ho : obst ny nx = false) :
    (relax obst cond nx ny d s).dist ny nx ≤ d := by
  unfold relax
  by_cases h : cond ∧ obst ny nx = false ∧ d < s.dist ny nx
  · rw [if_pos h]
    exact le_of_eq (updD_self _ _ _ _)
  · rw [if_neg h]
    by_contra hlt
    exact h ⟨hc, ho, by omega⟩

theorem relax_q_sub {c : Nat × Nat} (h : c ∈ s.q) :
    c ∈ (relax obst cond nx ny d s).q := by
  rcases relax_cases obst cond nx ny d s with he | ⟨_, _, _, he⟩
  · rw [he]; exact h
  · rw [he]
    exact List.mem_append_left _ h

theorem relax_q_cases {c : Nat × Nat} (h : c ∈ (relax obst cond nx ny d s).q) :
    c ∈ s.q ∨ c = (nx, ny) := by
  rcases relax_cases obst cond nx ny d s with he | ⟨_, _, _, he⟩
  · rw [he] at h; exact Or.inl h
  · rw [he] at h
    rcases List.mem_append.mp h with h | h
    · exact Or.inl h
    · exact Or.inr (List.mem_singleton.mp h)

theorem relax_changed_enqueued (y x : Nat)
    (h : (relax obst cond nx ny d s).dist y x ≠ s.dist y x) :
    (x, y) ∈ (relax obst cond nx ny d s).q := by
  rcases relax_cases obst cond nx ny d s with he | ⟨_, _, _, he⟩
  · rw [he] at h; exact absurd rfl h
  · by_cases hc : y = ny ∧ x = nx
    · rw [he]
      rcases hc with ⟨hy, hx⟩
      subst hy; subst hx
      exact List.mem_append_right _ (List.mem_singleton.mpr rfl)
    · rw [relax_dist_other obst cond nx ny d s y x hc] at h
      exact absurd rfl h

theorem relax_measure (H W : Nat) (hb : cond = true → nx < W ∧ ny < H) :
    gridSum H W (relax obst cond nx ny d s).dist +
        (relax obst cond nx ny d s).q.length ≤
      gridSum H W s.dist + s.q.length := by
  rcases relax_cases obst cond nx ny d s with he | ⟨hc, _, hlt, he⟩
  · rw [he]
  · rw [he]
    rcases hb hc with ⟨hx, hy⟩
    have hsum := gridSum_updD H W s.dist ny nx d hy hx
    simp only [List.length_append, List.length_singleton]
    omega

end RelaxLemmas

theorem relax_core (obst : Nat → Nat → Bool) (W H gx gy : Nat)
    (cond : Bool) (nx ny d x y : Nat) (s : DQ)
    (hc : CoreInv obst W H gx gy s)
    (hcond : cond = true → nx < W ∧ ny < H ∧ Adj (nx, ny) (x, y))
    (hx : x < W) (hy : y < H) (hfree : obst y x = false)
    (hreach : Reach obst W H (gx, gy) (x, y))
    (hd : d = s.dist y x + 1) :
    CoreInv obst W H gx gy (relax obst cond nx ny d s) ∧
      (relax obst cond nx ny d s).dist y x = s.dist y x := by
  rcases relax_cases obst cond nx ny d s with he | ⟨hctrue, ho, hlt, he⟩
  · rw [he]; exact ⟨hc, rfl⟩
  · rcases hcond hctrue with ⟨hnx, hny, hadj⟩
    have hnecell : ¬(y = ny ∧ x = nx) := by
      have := Adj.ne hadj
      intro hcontra
      exact this (by
        apply Prod.ext <;> simp [hcontra.1.symm, hcontra.2.symm])
    have hdisteq : (relax obst cond nx ny d s).dist = updD s.dist ny nx d := by
      rw [he]
    have hqeq : (relax obst cond nx ny d s).q = s.q ++ [(nx, ny)] := by
      rw [he]
    have hcurEq : (relax obst cond nx ny d s).dist y x = s.dist y x := by
      rw [hdisteq]; exact updD_other _ _ _ _ _ _ hnecell
    have htgt : (relax obst cond nx ny d s).dist ny nx = d := by
      rw [hdisteq]; exact updD_self _ _ _ _
    have hreachT : Reach obst W H (gx, gy) (nx, ny) :=
      Reach.step hreach (Adj.symm hadj) hnx hny ho
    refine ⟨⟨?_, ?_, ?_, ?_, ?_, ?_, ?_⟩, hcurEq⟩
    · -- pin
      by_cases hg : gy = ny ∧ gx = nx
      · exfalso
        have h0 : s.dist ny nx = 0 := by
          rw [← hg.1, ← hg.2]; exact hc.pin
        omega
      · rw [hdisteq, updD_other _ _ _ _ _ _ hg]
        exact hc.pin
    · -- leInf
      intro y' x'
      by_cases hcell : y' = ny ∧ x' = nx
      · rw [hcell.1, hcell.2, htgt]
        have := hc.leInf ny nx
        omega
      · rw [hdisteq, updD_other _ _ _ _ _ _ hcell]
        exact hc.leInf y' x'
    · -- outInf
      intro y' x' hout
      have hcell : ¬(y' = ny ∧ x' = nx) := by
        intro hcontra
        exact hout (by rw [hcontra.1, hcontra.2]; exact ⟨hnx, hny⟩)
      rw [hdisteq, updD_other _ _ _ _ _ _ hcell]
      exact hc.outInf y' x' hout
    · -- finFree
      intro y' x' hfin
      by_cases hcell : y' = ny ∧ x' = nx
      · rw [hcell.1, hcell.2]
        exact ⟨hnx, hny, ho⟩
      · rw [hdisteq, updD_other _ _ _ _ _ _ hcell] at hfin
        exact hc.finFree y' x' hfin
    · -- finReach
      intro y' x' hfin
      by_cases hcell : y' = ny ∧ x' = nx
      · rw [hcell.1, hcell.2]
        exact hreachT
      · rw [hdisteq, updD_other _ _ _ _ _ _ hcell] at hfin
        exact hc.finReach y' x' hfin
    · -- pred
      intro y' x' hfin hng
      by_cases hcell : y' = ny ∧ x' = nx
      · refine ⟨(x, y), ?_, hx, hy, hfree, ?_⟩
        · rw [hcell.1, hcell.2]; exact hadj
        · rw [hcurEq, hcell.1, hcell.2, htgt]
          omega
      · have hfin' : s.dist y' x' < INF := by
          rw [hdisteq, updD_other _ _ _ _ _ _ hcell] at hfin
          exact hfin
        rcases hc.pred y' x' hfin' hng with ⟨b, hb1, hb2, hb3, hb4, hb5⟩
        refine ⟨b, hb1, hb2, hb3, hb4, ?_⟩
        have hmono := relax_dist_mono obst cond nx ny d s b.2 b.1
        have hsame : (relax obst cond nx ny d s).dist y' x' = s.dist y' x' := by
          rw [hdisteq]; exact updD_other _ _ _ _ _ _ hcell
        omega
    · -- qmem
      intro c hcq
      rcases relax_q_cases obst cond nx ny d s hcq with hold | hnew
      · exact hc.qmem c hold
      · rw [hnew]
        exact ⟨hnx, hny, ho, hreachT⟩

theorem bfsStep_inv (obst : Nat → Nat → Bool) (W H gx gy : Nat)
    (dist0 : Nat → Nat → Nat) (x y : Nat) (rest : List (Nat × Nat))
    (hInv : BfsInv obst W H gx gy ⟨dist0, (x, y) :: rest⟩) :
    BfsInv obst W H gx gy (bfsStep obst W H ⟨dist0, (x, y) :: rest⟩) := by
  obtain ⟨hx0, hy0, hfreeC0, hreachC⟩ :=
    hInv.core.qmem (x, y) (List.mem_cons_self _ _)
  have hx : x < W := hx0
  have hy : y < H := hy0
  have hfreeC : obst y x = false := hfreeC0
  have hs0 : CoreInv obst W H gx gy ⟨dist0, rest⟩ :=
    { pin := hInv.core.pin, leInf := hInv.core.leInf, outInf := hInv.core.outInf,
      finFree := hInv.core.finFree, finReach := hInv.core.finReach,
      pred := hInv.core.pred,
      qmem := fun c hc => hInv.core.qmem c (List.mem_cons_of_mem _ hc) }
  set d := dist0 y x + 1 with hdDef
  set s0 : DQ := ⟨dist0, rest⟩ with hs0Def
  set s1 := relax obst (decide (0 < x)) (x - 1) y d s0 with hs1Def
  set s2 := relax obst (decide (x + 1 < W)) (x + 1) y d s1 with hs2Def
  set s3 := relax obst (decide (0 < y)) x (y - 1) d s2 with hs3Def
  set s4 := relax obst (decide (y + 1 < H)) x (y + 1) d s3 with hs4Def
  have hstep_eq : bfsStep obst W H ⟨dist0, (x, y) :: rest⟩ = s4 := rfl
  have hcond1 : decide (0 < x) = true → x - 1 < W ∧ y < H ∧ Adj (x - 1, y) (x, y) := by
    intro h
    have hx0 : 0 < x := of_decide_eq_true h
    exact ⟨by omega, hy, Or.inl ⟨by omega, rfl⟩⟩
  have hcond2 : decide (x + 1 < W) = true →
      x + 1 < W ∧ y < H ∧ Adj (x + 1, y) (x, y) := by
    intro h
    exact ⟨of_decide_eq_true h, hy, Or.inr (Or.inl ⟨rfl, rfl⟩)⟩
  have hcond3 : decide (0 < y) = true → x < W ∧ y - 1 < H ∧ Adj (x, y - 1) (x, y) := by
    intro h
    have hy0 : 0 < y := of_decide_eq_true h
    exact ⟨hx, by omega, Or.inr (Or.inr (Or.inl ⟨rfl, by omega⟩))⟩
  have hcond4 : decide (y + 1 < H) = true →
      x < W ∧ y + 1 < H ∧ Adj (x, y + 1) (x, y) := by
    intro h
    exact ⟨hx, of_decide_eq_true h, Or.inr (Or.inr (Or.inr ⟨rfl, rfl⟩))⟩
  have h1 := relax_core obst W H gx gy (decide (0 < x)) (x - 1) y d x y s0
    hs0 hcond1 hx hy hfreeC hreachC rfl
  have h2 := relax_core obst W H gx gy (decide (x + 1 < W)) (x + 1) y d x y s1
    h1.1 hcond2 hx hy hfreeC hreachC (by rw [h1.2])
  have h3 := relax_core obst W H gx gy (decide (0 < y)) x (y - 1) d x y s2
    h2.1 hcond3 hx hy hfreeC hreachC (by rw [h2.2, h1.2])
  have h4 := relax_core obst W H gx gy (decide (y + 1 < H)) x (y + 1) d x y s3
    h3.1 hcond4 hx hy hfreeC hreachC (by rw [h3.2, h2.2, h1.2])
  -- distance is pointwise non-increasing across the four relaxations
  have hmono : ∀ y' x', s4.dist y' x' ≤ dist0 y' x' := by
    intro y' x'
    have m1 : s1.dist y' x' ≤ s0.dist y' x' :=
      relax_dist_mono obst (decide (0 < x)) (x - 1) y d s0 y' x'
    have m2 : s2.dist y' x' ≤ s1.dist y' x' :=
      relax_dist_mono obst (decide (x + 1 < W)) (x + 1) y d s1 y' x'
    have m3 : s3.dist y' x' ≤ s2.dist y' x' :=
      relax_dist_mono obst (decide (0 < y)) x (y - 1) d s2 y' x'
    have m4 : s4.dist y' x' ≤ s3.dist y' x' :=
      relax_dist_mono obst (decide (y + 1 < H)) x (y + 1) d s3 y' x'
    have hs0d : s0.dist y' x' = dist0 y' x' := rfl
    omega
  -- the popped cell's distance is untouched
  have hcur : s4.dist y x = dist0 y x := by
    have e4 : s4.dist y x = s3.dist y x := h4.2
    have e3 : s3.dist y x = s2.dist y x := h3.2
    have e2 : s2.dist y x = s1.dist y x := h2.2
    have e1 : s1.dist y x = s0.dist y x := h1.2
    rw [e4, e3, e2, e1]
  -- cells whose distance changed are in the final queue
  have hchanged : ∀ y' x', s4.dist y' x' ≠ dist0 y' x' → (x', y') ∈ s4.q := by
    intro y' x' hne
    by_cases c4 : s4.dist y' x' = s3.dist y' x'
    · by_cases c3 : s3.dist y' x' = s2.dist y' x'
      · by_cases c2 : s2.dist y' x' = s1.dist y' x'
        · have c1 : s1.dist y' x' ≠ s0.dist y' x' := by
            intro h
            have hs0d : s0.dist y' x' = dist0 y' x' := rfl
            exact hne (by rw [c4, c3, c2, h, hs0d])
          have hq1 : (x', y') ∈ s1.q :=
            relax_changed_enqueued obst (decide (0 < x)) (x - 1) y d s0 y' x' c1
          have hq2 : (x', y') ∈ s2.q :=
            relax_q_sub obst (decide (x + 1 < W)) (x + 1) y d s1 hq1
          have hq3 : (x', y') ∈ s3.q :=
            relax_q_sub obst (decide (0 < y)) x (y - 1) d s2 hq2
          exact relax_q_sub obst (decide (y + 1 < H)) x (y + 1) d s3 hq3
        · have hq2 : (x', y') ∈ s2.q :=
            relax_changed_enqueued obst (decide (x + 1 < W)) (x + 1) y d s1 y' x' c2
          have hq3 : (x', y') ∈ s3.q :=
            relax_q_sub obst (decide (0 < y)) x (y - 1) d s2 hq2
          exact relax_q_sub obst (decide (y + 1 < H)) x (y + 1) d s3 hq3
      · have hq3 : (x', y') ∈ s3.q :=
          relax_changed_enqueued obst (decide (0 < y)) x (y - 1) d s2 y' x' c3
        exact relax_q_sub obst (decide (y + 1 < H)) x (y + 1) d s3 hq3
    · exact relax_changed_enqueued obst (decide (y + 1 < H)) x (y + 1) d s3 y' x' c4
  -- everything the queue had after the pop is still in the final queue
  have hrest_sub : ∀ c ∈ rest, c ∈ s4.q := by
    intro c hc
    have hq0 : c ∈ s0.q := hc
    have hq1 : c ∈ s1.q := relax_q_sub obst (decide (0 < x)) (x - 1) y d s0 hq0
    have hq2 : c ∈ s2.q := relax_q_sub obst (decide (x + 1 < W)) (x + 1) y d s1 hq1
    have hq3 : c ∈ s3.q := relax_q_sub obst (decide (0 < y)) x (y - 1) d s2 hq2
    exact relax_q_sub obst (decide (y + 1 < H)) x (y + 1) d s3 hq3
  -- every free in-bounds neighbour of the popped cell ends at distance ≤ d
  have hnbr : ∀ v : Nat × Nat, Adj (x, y) v → v.1 < W → v.2 < H →
      obst v.2 v.1 = false → s4.dist v.2 v.1 ≤ d := by
    intro v hadj hv1 hv2 hv3
    rcases hadj with hcase | hcase | hcase | hcase
    · -- v = (x+1, y): second relaxation
      have e1 : v.1 = x + 1 := hcase.1
      have e2 : v.2 = y := hcase.2
      have hvW : x + 1 < W := by omega
      have hfv : obst y (x + 1) = false := by
        rw [← e2, ← e1]
        exact hv3
      have h2le : s2.dist y (x + 1) ≤ d :=
        relax_dist_le_d obst (decide (x + 1 < W)) (x + 1) y d s1
          (decide_eq_true hvW) hfv
      have m3 : s3.dist y (x + 1) ≤ s2.dist y (x + 1) :=
        relax_dist_mono obst (decide (0 < y)) x (y - 1) d s2 y (x + 1)
      have m4 : s4.dist y (x + 1) ≤ s3.dist y (x + 1) :=
        relax_dist_mono obst (decide (y + 1 < H)) x (y + 1) d s3 y (x + 1)
      rw [e1, e2]
      omega
    · -- v = (x-1, y): first relaxation
      have e1 : x = v.1 + 1 := hcase.1
      have e2 : v.2 = y := hcase.2
      have hxpos : 0 < x := by omega
      have e1' : v.1 = x - 1 := by omega
      have hfv : obst y (x - 1) = false := by
        rw [← e2, ← e1']
        exact hv3
      have h1le : s1.dist y (x - 1) ≤ d :=
        relax_dist_le_d obst (decide (0 < x)) (x - 1) y d s0
          (decide_eq_true hxpos) hfv
      have m2 : s2.dist y (x - 1) ≤ s1.dist y (x - 1) :=
        relax_dist_mono obst (decide (x + 1 < W)) (x + 1) y d s1 y (x - 1)
      have m3 : s3.dist y (x - 1) ≤ s2.dist y (x - 1) :=
        relax_dist_mono obst (decide (0 < y)) x (y - 1) d s2 y (x - 1)
      have m4 : s4.dist y (x - 1) ≤ s3.dist y (x - 1) :=
        relax_dist_mono obst (decide (y + 1 < H)) x (y + 1) d s3 y (x - 1)
      rw [e1', e2]
      omega
    · -- v = (x, y+1): fourth relaxation
      have e1 : v.1 = x := hcase.1
      have e2 : v.2 = y + 1 := hcase.2
      have hvH : y + 1 < H := by omega
      have hfv : obst (y + 1) x = false := by
        rw [← e2, ← e1]
        exact hv3
      have h4le : s4.dist (y + 1) x ≤ d :=
        relax_dist_le_d obst (decide (y + 1 < H)) x (y + 1) d s3
          (decide_eq_true hvH) hfv
      rw [e1, e2]
      omega
    · -- v = (x, y-1): third relaxation
      have e1 : v.1 = x := hcase.1
      have e2 : y = v.2 + 1 := hcase.2
      have hypos : 0 < y := by omega
      have e2' : v.2 = y - 1 := by omega
      have hfv : obst (y - 1) x = false := by
        rw [← e2', ← e1]
        exact hv3
      have h3le : s3.dist (y - 1) x ≤ d :=
        relax_dist_le_d obst (decide (0 < y)) x (y - 1) d s2
          (decide_eq_true hypos) hfv
      have m4 : s4.dist (y - 1) x ≤ s3.dist (y - 1) x :=
        relax_dist_mono obst (decide (y + 1 < H)) x (y + 1) d s3 (y - 1) x
      rw [e1, e2']
      omega
  rw [hstep_eq]
  refine ⟨h4.1, ?_⟩
  intro u hu1 hu2 hu3 hunotq v hadj hv1 hv2 hv3
  by_cases huc : u = (x, y)
  · subst huc
    have hle := hnbr v hadj hv1 hv2 hv3
    have hcur' : s4.dist (x, y).2 (x, y).1 = dist0 y x := hcur
    omega
  · have hnotq0 : u ∉ ((x, y) :: rest : List (Nat × Nat)) := by
      intro hmem
      rcases List.mem_cons.mp hmem with h | h
      · exact huc h
      · exact hunotq (hrest_sub u h)
    have hueq : s4.dist u.2 u.1 = dist0 u.2 u.1 := by
      by_contra hne
      have hqm := hchanged u.2 u.1 hne
      rw [Prod.mk.eta] at hqm
      exact hunotq hqm
    have hold : dist0 v.2 v.1 ≤ dist0 u.2 u.1 + 1 :=
      hInv.stab u hu1 hu2 hu3 hnotq0 v hadj hv1 hv2 hv3
    have hmv := hmono v.2 v.1
    omega

theorem bfsStep_measure (obst : Nat → Nat → Bool) (W H : Nat)
    (dist0 : Nat → Nat → Nat) (x y : Nat) (rest : List (Nat × Nat))
    (hx : x < W) (hy : y < H) :
    gridSum H W (bfsStep obst W H ⟨dist0, (x, y) :: rest⟩).dist +
        (bfsStep obst W H ⟨dist0, (x, y) :: rest⟩).q.length <
      gridSum H W dist0 + ((x, y) :: rest : List (Nat × Nat)).length := by
  set d := dist0 y x + 1 with hdDef
  set s0 : DQ := ⟨dist0, rest⟩ with hs0Def
  set s1 := relax obst (decide (0 < x)) (x - 1) y d s0 with hs1Def
  set s2 := relax obst (decide (x + 1 < W)) (x + 1) y d s1 with hs2Def
  set s3 := relax obst (decide (0 < y)) x (y - 1) d s2 with hs3Def
  set s4 := relax obst (decide (y + 1 < H)) x (y + 1) d s3 with hs4Def
  have hstep_eq : bfsStep obst W H ⟨dist0, (x, y) :: rest⟩ = s4 := rfl
  have hm1 : gridSum H W s1.dist + s1.q.length ≤ gridSum H W s0.dist + s0.q.length :=
    relax_measure obst (decide (0 < x)) (x - 1) y d s0 H W
      (fun _ => ⟨by omega, hy⟩)
  have hm2 : gridSum H W s2.dist + s2.q.length ≤ gridSum H W s1.dist + s1.q.length :=
    relax_measure obst (decide (x + 1 < W)) (x + 1) y d s1 H W
      (fun h => ⟨of_decide_eq_true h, hy⟩)
  have hm3 : gridSum H W s3.dist + s3.q.length ≤ gridSum H W s2.dist + s2.q.length :=
    relax_measure obst (decide (0 < y)) x (y - 1) d s2 H W
      (fun _ => ⟨hx, by omega⟩)
  have hm4 : gridSum H W s4.dist + s4.q.length ≤ gridSum H W s3.dist + s3.q.length :=
    relax_measure obst (decide (y + 1 < H)) x (y + 1) d s3 H W
      (fun h => ⟨hx, of_decide_eq_true h⟩)
  have hs0sum : gridSum H W s0.dist = gridSum H W dist0 := rfl
  have hs0len : s0.q.length = rest.length := rfl
  have hlen : ((x, y) :: rest : List (Nat × Nat)).length = rest.length + 1 :=
    List.length_cons _ _
  rw [hstep_eq]
  omega

theorem bfsLoop_succ_nil (obst : Nat → Nat → Bool) (W H n : Nat)
    (dist0 : Nat → Nat → Nat) :
    bfsLoop obst W H (n + 1) ⟨dist0, []⟩ = ⟨dist0, []⟩ := rfl

theorem bfsLoop_succ_cons (obst : Nat → Nat → Bool) (W H n : Nat)
    (dist0 : Nat → Nat → Nat) (c : Nat × Nat) (cs : List (Nat × Nat)) :
    bfsLoop obst W H (n + 1) ⟨dist0, c :: cs⟩ =
      bfsLoop obst W H n (bfsStep obst W H ⟨dist0, c :: cs⟩) := rfl

theorem bfsLoop_inv_drain (obst : Nat → Nat → Bool) (W H gx gy : Nat) :
    ∀ (fuel : Nat) (s : DQ), BfsInv obst W H gx gy s →
      gridSum H W s.dist + s.q.length < fuel →
      BfsInv obst W H gx gy (bfsLoop obst W H fuel s) ∧
        (bfsLoop obst W H fuel s).q = [] := by
  intro fuel
  induction fuel with
  | zero =>
    intro s _ hm
    exact absurd hm (Nat.not_lt_zero _)
  | succ n ih =>
    intro s hInv hm
    rcases s with ⟨dist0, q0⟩
    cases q0 with
    | nil =>
      rw [bfsLoop_succ_nil]
      exact ⟨hInv, rfl⟩
    | cons c cs =>
      rcases c with ⟨x, y⟩
      rw [bfsLoop_succ_cons]
      have hstep := bfsStep_inv obst W H gx gy dist0 x y cs hInv
      obtain ⟨hxw, hyh, _, _⟩ := hInv.core.qmem (x, y) (List.mem_cons_self _ _)
      have hx : x < W := hxw
      have hy : y < H := hyh
      have hmeas := bfsStep_measure obst W H dist0 x y cs hx hy
      have hm' : gridSum H W dist0 + ((x, y) :: cs : List (Nat × Nat)).length < n + 1 := hm
      exact ih (bfsStep obst W H ⟨dist0, (x, y) :: cs⟩) hstep (by omega)

theorem bfsInit_inv (obst : Nat → Nat → Bool) (W H gx gy : Nat)
    (hgx : gx < W) (hgy : gy < H) (hfree : obst gy gx = false) :
    BfsInv obst W H gx gy (bfsInit gx gy) := by
  have hINFpos : 0 < INF := by norm_num [INF]
  have hdist : ∀ y x, (bfsInit gx gy).dist y x =
      (if y = gy ∧ x = gx then 0 else INF) := by
    intro y x
    by_cases h : y = gy ∧ x = gx
    · rw [if_pos h]
      show updD (fun _ _ => INF) gy gx 0 y x = 0
      rw [h.1, h.2]
      exact updD_self _ _ _ _
    · rw [if_neg h]
      show updD (fun _ _ => INF) gy gx 0 y x = INF
      rw [updD_other _ _ _ _ _ _ h]
  refine ⟨⟨?_, ?_, ?_, ?_, ?_, ?_, ?_⟩, ?_⟩
  · rw [hdist]
    simp
  · intro y x
    rw [hdist]
    by_cases h : y = gy ∧ x = gx
    · rw [if_pos h]; omega
    · rw [if_neg h]
  · intro y x hout
    rw [hdist, if_neg]
    intro h
    exact hout (by rw [h.1, h.2]; exact ⟨hgx, hgy⟩)
  · intro y x hfin
    rw [hdist] at hfin
    by_cases h : y = gy ∧ x = gx
    · rw [h.1, h.2]
      exact ⟨hgx, hgy, hfree⟩
    · rw [if_neg h] at hfin
      omega
  · intro y x hfin
    rw [hdist] at hfin
    by_cases h : y = gy ∧ x = gx
    · rw [h.1, h.2]
      exact Reach.base
    · rw [if_neg h] at hfin
      omega
  · intro y x hfin hng
    rw [hdist] at hfin
    by_cases h : y = gy ∧ x = gx
    · exact absurd ⟨h.2, h.1⟩ hng
    · rw [if_neg h] at hfin
      omega
  · intro c hc
    have hceq : c = (gx, gy) := List.mem_singleton.mp hc
    rw [hceq]
    exact ⟨hgx, hgy, hfree, Reach.base⟩
  · intro u _ _ _ hunotq v _ hv1 hv2 _
    have hune : ¬(u.2 = gy ∧ u.1 = gx) := by
      intro h
      apply hunotq
      have : u = (gx, gy) := by
        apply Prod.ext
        · exact h.2
        · exact h.1
      rw [this]
      exact List.mem_singleton.mpr rfl
    have hu : (bfsInit gx gy).dist u.2 u.1 = INF := by
      rw [hdist, if_neg hune]
    have hv : (bfsInit gx gy).dist v.2 v.1 ≤ INF := by
      rw [hdist]
      by_cases h : v.2 = gy ∧ v.1 = gx
      · rw [if_pos h]; omega
      · rw [if_neg h]
    omega

theorem bfsInit_measure (H W gx gy : Nat) :
    gridSum H W (bfsInit gx gy).dist + (bfsInit gx gy).q.length < bfsFuel H W ∨
      H * W = 0 := by
  by_cases hz : H * W = 0
  · exact Or.inr hz
  left
  have hb : ∀ y x, (bfsInit gx gy).dist y x ≤ INF := by
    intro y x
    show updD (fun _ _ => INF) gy gx 0 y x ≤ INF
    unfold updD
    by_cases h : y = gy ∧ x = gx
    · rw [if_pos h]; omega
    · rw [if_neg h]
  have hsum := gridSum_le_of_bounded H W (bfsInit gx gy).dist INF hb
  have hlen : (bfsInit gx gy).q.length = 1 := rfl
  unfold bfsFuel
  omega

/-- Final BFS state on a valid goal: invariant holds and the queue is empty. -/
theorem bfsFinal_props (obst : Nat → Nat → Bool) (W H gx gy : Nat)
    (hgx : gx < W) (hgy : gy < H) (hfree : obst gy gx = false) :
    BfsInv obst W H gx gy (bfsLoop obst W H (bfsFuel H W) (bfsInit gx gy)) ∧
      (bfsLoop obst W H (bfsFuel H W) (bfsInit gx gy)).q = [] := by
  have hnz : H * W ≠ 0 := by
    have : 0 < W := by omega
    have : 0 < H := by omega
    positivity
  rcases bfsInit_measure H W gx gy with hm | hm
  · exact bfsLoop_inv_drain obst W H gx gy (bfsFuel H W) (bfsInit gx gy)
      (bfsInit_inv obst W H gx gy hgx hgy hfree) hm
  · exact absurd hm hnz

theorem bfsDistNat_pin (obst : Nat → Nat → Bool) (W H gx gy : Nat)
    (hgx : gx < W) (hgy : gy < H) (hfree : obst gy gx = false) :
    bfsDistNat obst H W gx gy gy gx = 0 :=
  (bfsFinal_props obst W H gx gy hgx hgy hfree).1.core.pin

theorem bfsDistNat_leInf (obst : Nat → Nat → Bool) (W H gx gy : Nat)
    (hgx : gx < W) (hgy : gy < H) (hfree : obst gy gx = false) (y x : Nat) :
    bfsDistNat obst H W gx gy y x ≤ INF :=
  (bfsFinal_props obst W H gx gy hgx hgy hfree).1.core.leInf y x

theorem bfsDistNat_pred (obst : Nat → Nat → Bool) (W H gx gy : Nat)
    (hgx : gx < W) (hgy : gy < H) (hfree : obst gy gx = false) (y x : Nat)
    (hfin : bfsDistNat obst H W gx gy y x < INF) (hng : ¬(x = gx ∧ y = gy)) :
    ∃ b : Nat × Nat, Adj (x, y) b ∧ b.1 < W ∧ b.2 < H ∧ obst b.2 b.1 = false ∧
      bfsDistNat obst H W gx gy b.2 b.1 + 1 = bfsDistNat obst H W gx gy y x := by
  obtain ⟨hInv, hq⟩ := bfsFinal_props obst W H gx gy hgx hgy hfree
  obtain ⟨b, hadj, hb1, hb2, hb3, hle⟩ := hInv.core.pred y x hfin hng
  obtain ⟨hxW, hyH, hfreexy⟩ := hInv.core.finFree y x hfin
  have hbq : b ∉ (bfsLoop obst W H (bfsFuel H W) (bfsInit gx gy)).q := by
    rw [hq]
    exact List.not_mem_nil b
  have hrev : bfsDistNat obst H W gx gy y x ≤ bfsDistNat obst H W gx gy b.2 b.1 + 1 :=
    hInv.stab b hb1 hb2 hb3 hbq (x, y) (Adj.symm hadj) hxW hyH hfreexy
  exact ⟨b, hadj, hb1, hb2, hb3, by
    have hle' : bfsDistNat obst H W gx gy b.2 b.1 + 1 ≤ bfsDistNat obst H W gx gy y x := hle
    omega⟩

theorem bfsDistNat_unreach (obst : Nat → Nat → Bool) (W H gx gy : Nat)
    (hgx : gx < W) (hgy : gy < H) (hfree : obst gy gx = false) (y x : Nat)
    (hnr : ¬ Reach obst W H (gx, gy) (x, y)) :
    bfsDistNat obst H W gx gy y x = INF := by
  obtain ⟨hInv, _⟩ := bfsFinal_props obst W H gx gy hgx hgy hfree
  have hle := hInv.core.leInf y x
  by_contra h
  have hlt : bfsDistNat obst H W gx gy y x < INF := lt_of_le_of_ne hle h
  exact hnr (hInv.core.finReach y x hlt)

theorem bfsDistNat_stab (obst : Nat → Nat → Bool) (W H gx gy : Nat)
    (hgx : gx < W) (hgy : gy < H) (hfree : obst gy gx = false)
    (u : Nat × Nat) (hu1 : u.1 < W) (hu2 : u.2 < H) (hu3 : obst u.2 u.1 = false)
    (v : Nat × Nat) (hadj : Adj u v) (hv1 : v.1 < W) (hv2 : v.2 < H)
    (hv3 : obst v.2 v.1 = false) :
    bfsDistNat obst H W gx gy v.2 v.1 ≤ bfsDistNat obst H W gx gy u.2 u.1 + 1 := by
  obtain ⟨hInv, hq⟩ := bfsFinal_props obst W H gx gy hgx hgy hfree
  have huq : u ∉ (bfsLoop obst W H (bfsFuel H W) (bfsInit gx gy)).q := by
    rw [hq]
    exact List.not_mem_nil u
  exact hInv.stab u hu1 hu2 hu3 huq v hadj hv1 hv2 hv3

theorem bfs_dist_valid_eq (obst : Nat → Nat → Bool) (H W : Nat) (goal : Int × Int)
    (h1 : 0 ≤ goal.1 ∧ goal.1 < (W : Int) ∧ 0 ≤ goal.2 ∧ goal.2 < (H : Int))
    (h2 : obst goal.2.toNat goal.1.toNat = false) :
    bfs_dist obst H W goal = bfsDistNat obst H W goal.1.toNat goal.2.toNat := by
  unfold bfs_dist
  rw [if_pos h1, h2]
  simp

theorem bfs_dist_oob (obst : Nat → Nat → Bool) (H W : Nat) (goal : Int × Int)
    (h1 : ¬(0 ≤ goal.1 ∧ goal.1 < (W : Int) ∧ 0 ≤ goal.2 ∧ goal.2 < (H : Int))) :
    bfs_dist obst H W goal = fun _ _ => INF := by
  unfold bfs_dist
  rw [if_neg h1]

theorem bfs_dist_goal_obst (obst : Nat → Nat → Bool) (H W : Nat) (goal : Int × Int)
    (h1 : 0 ≤ goal.1 ∧ goal.1 < (W : Int) ∧ 0 ≤ goal.2 ∧ goal.2 < (H : Int))
    (h2 : obst goal.2.toNat goal.1.toNat = true) :
    bfs_dist obst H W goal = fun _ _ => INF := by
  unfold bfs_dist
  rw [if_pos h1, h2]
  simp

/-- Local stability of the distance field returned by `_bfs_dist`, for every
goal (valid or not): an in-bounds free cell is never more than one step better
than an adjacent in-bounds free cell. -/
theorem bfs_dist_stab (obst : Nat → Nat → Bool) (H W : Nat) (goal : Int × Int)
    (u : Nat × Nat) (hu1 : u.1 < W) (hu2 : u.2 < H) (hu3 : obst u.2 u.1 = false)
    (v : Nat × Nat) (hadj : Adj u v) (hv1 : v.1 < W) (hv2 : v.2 < H)
    (hv3 : obst v.2 v.1 = false) :
    bfs_dist obst H W goal v.2 v.1 ≤ bfs_dist obst H W goal u.2 u.1 + 1 := by
  by_cases h1 : 0 ≤ goal.1 ∧ goal.1 < (W : Int) ∧ 0 ≤ goal.2 ∧ goal.2 < (H : Int)
  · by_cases h2 : obst goal.2.toNat goal.1.toNat = true
    · rw [bfs_dist_goal_obst obst H W goal h1 h2]
      show INF ≤ INF + 1
      omega
    · have h2' : obst goal.2.toNat goal.1.toNat = false :=
        Bool.eq_false_iff.mpr h2
      rw [bfs_dist_valid_eq obst H W goal h1 h2']
      have hgx : goal.1.toNat < W := by omega
      have hgy : goal.2.toNat < H := by omega
      exact bfsDistNat_stab obst W H goal.1.toNat goal.2.toNat hgx hgy h2'
        u hu1 hu2 hu3 v hadj hv1 hv2 hv3
  · rw [bfs_dist_oob obst H W goal h1]
    show INF ≤ INF + 1
    omega

theorem intendFold_stay (dist : Nat → Nat → Nat) (obst : Nat → Nat → Bool)
    (W H : Nat) (cur : Int × Int) (l : List (Int × Int)) (p : Int × Int)
    (b dcur : Nat) (hb : b + 1 = dcur)
    (hL : ∀ dxy ∈ l, inb W H (cur.1 + dxy.1, cur.2 + dxy.2) →
      obst (cur.2 + dxy.2).toNat (cur.1 + dxy.1).toNat = false →
      dcur ≤ dist (cur.2 + dxy.2).toNat (cur.1 + dxy.1).toNat + 1) :
    l.foldl (intendStep dist obst W H cur) (p, b) = (p, b) := by
  induction l with
  | nil => rfl
  | cons dxy l' ih =>
    have hstep : intendStep dist obst W H cur (p, b) dxy = (p, b) := by
      unfold intendStep
      by_cases hadm : inb W H (cur.1 + dxy.1, cur.2 + dxy.2) ∧
          obst (cur.2 + dxy.2).toNat (cur.1 + dxy.1).toNat = false
      · rw [if_pos hadm, if_neg]
        have hge := hL dxy (List.mem_cons_self _ _) hadm.1 hadm.2
        have : (p, b).2 = b := rfl
        omega
      · rw [if_neg hadm]
    calc (dxy :: l').foldl (intendStep dist obst W H cur) (p, b)
        = l'.foldl (intendStep dist obst W H cur)
            (intendStep dist obst W H cur (p, b) dxy) := rfl
      _ = l'.foldl (intendStep dist obst W H cur) (p, b) := by rw [hstep]
      _ = (p, b) := ih (fun dxy h => hL dxy (List.mem_cons_of_mem _ h))

theorem intendFold_go (dist : Nat → Nat → Nat) (obst : Nat → Nat → Bool)
    (W H : Nat) (cur : Int × Int) (l : List (Int × Int)) (dcur : Nat)
    (hL : ∀ dxy ∈ l, inb W H (cur.1 + dxy.1, cur.2 + dxy.2) →
      obst (cur.2 + dxy.2).toNat (cur.1 + dxy.1).toNat = false →
      dcur ≤ dist (cur.2 + dxy.2).toNat (cur.1 + dxy.1).toNat + 1) :
    l.foldl (intendStep dist obst W H cur) (cur, dcur) =
      match (l.map (fun dxy => (cur.1 + dxy.1, cur.2 + dxy.2))).find?
          (fun nb => decide (inb W H nb ∧ obst nb.2.toNat nb.1.toNat = false ∧
            dist nb.2.toNat nb.1.toNat < dcur)) with
      | none => (cur, dcur)
      | some nb => (nb, dist nb.2.toNat nb.1.toNat) := by
  induction l with
  | nil => rfl
  | cons dxy l' ih =>
    by_cases hp : inb W H (cur.1 + dxy.1, cur.2 + dxy.2) ∧
        obst (cur.2 + dxy.2).toNat (cur.1 + dxy.1).toNat = false ∧
        dist (cur.2 + dxy.2).toNat (cur.1 + dxy.1).toNat < dcur
    · have hfind :
          ((dxy :: l').map (fun d => (cur.1 + d.1, cur.2 + d.2))).find?
            (fun nb => decide (inb W H nb ∧ obst nb.2.toNat nb.1.toNat = false ∧
              dist nb.2.toNat nb.1.toNat < dcur)) =
          some (cur.1 + dxy.1, cur.2 + dxy.2) := by
        rw [List.map_cons]
        exact List.find?_cons_of_pos _ (by
          exact decide_eq_true (by
            refine ⟨hp.1, ?_, ?_⟩
            · exact hp.2.1
            · exact hp.2.2))
      rw [hfind]
      have hstep : intendStep dist obst W H cur (cur, dcur) dxy =
          ((cur.1 + dxy.1, cur.2 + dxy.2),
            dist (cur.2 + dxy.2).toNat (cur.1 + dxy.1).toNat) := by
        unfold intendStep
        rw [if_pos ⟨hp.1, hp.2.1⟩, if_pos]
        exact hp.2.2
      have hbd : dist (cur.2 + dxy.2).toNat (cur.1 + dxy.1).toNat + 1 = dcur := by
        have hge := hL dxy (List.mem_cons_self _ _) hp.1 hp.2.1
        have hlt := hp.2.2
        omega
      calc (dxy :: l').foldl (intendStep dist obst W H cur) (cur, dcur)
          = l'.foldl (intendStep dist obst W H cur)
              (intendStep dist obst W H cur (cur, dcur) dxy) := rfl
        _ = l'.foldl (intendStep dist obst W H cur)
              ((cur.1 + dxy.1, cur.2 + dxy.2),
                dist (cur.2 + dxy.2).toNat (cur.1 + dxy.1).toNat) := by rw [hstep]
        _ = ((cur.1 + dxy.1, cur.2 + dxy.2),
              dist (cur.2 + dxy.2).toNat (cur.1 + dxy.1).toNat) :=
            intendFold_stay dist obst W H cur l' _ _ dcur hbd
              (fun d h => hL d (List.mem_cons_of_mem _ h))
    · have hfind :
          ((dxy :: l').map (fun d => (cur.1 + d.1, cur.2 + d.2))).find?
            (fun nb => decide (inb W H nb ∧ obst nb.2.toNat nb.1.toNat = false ∧
              dist nb.2.toNat nb.1.toNat < dcur)) =
          (l'.map (fun d => (cur.1 + d.1, cur.2 + d.2))).find?
            (fun nb => decide (inb W H nb ∧ obst nb.2.toNat nb.1.toNat = false ∧
              dist nb.2.toNat nb.1.toNat < dcur)) := by
        rw [List.map_cons, List.find?_cons_of_neg]
        simp only [decide_eq_true_eq]
        exact hp
      rw [hfind]
      have hstep : intendStep dist obst W H cur (cur, dcur) dxy = (cur, dcur) := by
        unfold intendStep
        by_cases hadm : inb W H (cur.1 + dxy.1, cur.2 + dxy.2) ∧
            obst (cur.2 + dxy.2).toNat (cur.1 + dxy.1).toNat = false
        · rw [if_pos hadm, if_neg]
          intro hlt
          exact hp ⟨hadm.1, hadm.2, hlt⟩
        · rw [if_neg hadm]
      calc (dxy :: l').foldl (intendStep dist obst W H cur) (cur, dcur)
          = l'.foldl (intendStep dist obst W H cur)
              (intendStep dist obst W H cur (cur, dcur) dxy) := rfl
        _ = l'.foldl (intendStep dist obst W H cur) (cur, dcur) := by rw [hstep]
        _ = _ := ih (fun d h => hL d (List.mem_cons_of_mem _ h))

/-- On the field produced by `_bfs_dist` (any goal), the greedy fold of the
source coincides with "first strictly closer neighbour in the fixed order",
because BFS stability forbids a neighbour from being more than one step
closer. -/
theorem intendFold_bfs (obst : Nat → Nat → Bool) (W H : Nat)
    (goal cur : Int × Int) (hin : inb W H cur)
    (hfree : obst cur.2.toNat cur.1.toNat = false) :
    intendFold (bfs_dist obst H W goal) obst W H cur
        (bfs_dist obst H W goal cur.2.toNat cur.1.toNat) =
      match firstStrictlyCloser (bfs_dist obst H W goal) obst W H cur
          (bfs_dist obst H W goal cur.2.toNat cur.1.toNat) with
      | none => (cur, bfs_dist obst H W goal cur.2.toNat cur.1.toNat)
      | some nb => (nb, bfs_dist obst H W goal nb.2.toNat nb.1.toNat) := by
  unfold intendFold firstStrictlyCloser
  apply intendFold_go
  intro dxy hmem hnb_in hnb_free
  obtain ⟨hc1, hc2, hc3, hc4⟩ := hin
  obtain ⟨hn1, hn2, hn3, hn4⟩ := hnb_in
  have hadj : Adj ((cur.1 + dxy.1).toNat, (cur.2 + dxy.2).toNat)
      (cur.1.toNat, cur.2.toNat) := by
    simp only [nbs, List.mem_cons, List.not_mem_nil, or_false] at hmem
    unfold Adj
    rcases hmem with h | h | h | h <;> subst h <;> omega
  have hstab := bfs_dist_stab obst H W goal
    ((cur.1 + dxy.1).toNat, (cur.2 + dxy.2).toNat)
    (by omega) (by omega) hnb_free
    (cur.1.toNat, cur.2.toNat) hadj (by omega) (by omega) hfree
  exact hstab

/-- The intended cell returned by the fold is the current cell or an in-bounds
obstacle-free cell. -/
theorem intendFold_fst_cases (dist : Nat → Nat → Nat) (obst : Nat → Nat → Bool)
    (W H : Nat) (cur : Int × Int) (dcur : Nat) :
    (intendFold dist obst W H cur dcur).1 = cur ∨
      (inb W H (intendFold dist obst W H cur dcur).1 ∧
        obst (intendFold dist obst W H cur dcur).1.2.toNat
          (intendFold dist obst W H cur dcur).1.1.toNat = false) := by
  unfold intendFold
  have hgen : ∀ (l : List (Int × Int)) (st : (Int × Int) × Nat),
      (st.1 = cur ∨ (inb W H st.1 ∧ obst st.1.2.toNat st.1.1.toNat = false)) →
      ((l.foldl (intendStep dist obst W H cur) st).1 = cur ∨
        (inb W H (l.foldl (intendStep dist obst W H cur) st).1 ∧
          obst (l.foldl (intendStep dist obst W H cur) st).1.2.toNat
            (l.foldl (intendStep dist obst W H cur) st).1.1.toNat = false)) := by
    intro l
    induction l with
    | nil => intro st h; exact h
    | cons dxy l' ih =>
      intro st h
      have hstep : (intendStep dist obst W H cur st dxy).1 = cur ∨
          (inb W H (intendStep dist obst W H cur st dxy).1 ∧
            obst (intendStep dist obst W H cur st dxy).1.2.toNat
              (intendStep dist obst W H cur st dxy).1.1.toNat = false) := by
        unfold intendStep
        by_cases hadm : inb W H (cur.1 + dxy.1, cur.2 + dxy.2) ∧
            obst (cur.2 + dxy.2).toNat (cur.1 + dxy.1).toNat = false
        · rw [if_pos hadm]
          by_cases hlt : dist (cur.2 + dxy.2).toNat (cur.1 + dxy.1).toNat < st.2
          · rw [if_pos hlt]
            exact Or.inr ⟨hadm.1, hadm.2⟩
          · rw [if_neg hlt]
            exact h
        · rw [if_neg hadm]
          exact h
      exact ih (intendStep dist obst W H cur st dxy) hstep
  exact hgen nbs (cur, dcur) (Or.inl rfl)

/-- The first-strictly-closer neighbour, when it exists, is a genuine
neighbour of the current cell: distinct from it, in bounds, free, strictly
closer. -/
theorem firstStrictlyCloser_props (dist : Nat → Nat → Nat)
    (obst : Nat → Nat → Bool) (W H : Nat) (cur : Int × Int) (dcur : Nat)
    (nb : Int × Int)
    (h : firstStrictlyCloser dist obst W H cur dcur = some nb) :
    nb ≠ cur ∧ inb W H nb ∧ obst nb.2.toNat nb.1.toNat = false ∧
      dist nb.2.toNat nb.1.toNat < dcur := by
  unfold firstStrictlyCloser at h
  have hmem := List.mem_of_find?_eq_some h
  have hp := List.find?_some h
  rw [decide_eq_true_eq] at hp
  refine ⟨?_, hp.1, hp.2.1, hp.2.2⟩
  simp only [nbs, List.map_cons, List.map_nil, List.mem_cons,
    List.not_mem_nil, or_false] at hmem
  intro he
  rcases hmem with h1 | h1 | h1 | h1 <;>
    · rw [he] at h1
      have hfst := congrArg Prod.fst h1
      have hsnd := congrArg Prod.snd h1
      omega

/-- `hmWait` never touches the pressure fields. -/
theorem hmWait_coll (W H : Nat) (cur nxt : Int × Int) (s : HMState) :
    (hmWait W H cur nxt s).coll = s.coll ∧
      (hmWait W H cur nxt s).total_blocked = s.total_blocked := by
  unfold hmWait
  split_ifs <;> exact ⟨rfl, rfl⟩

/-- When the current cell is in bounds, free and at finite distance, the
pressure part reduces to the single intended-move conditional. -/
theorem hmPressure_eq (W H : Nat) (obst : Nat → Nat → Bool) (cur nxt : Int × Int)
    (dist : Nat → Nat → Nat) (s : HMState)
    (hin : inb W H cur) (hfree : obst cur.2.toNat cur.1.toNat = false)
    (hfin : dist cur.2.toNat cur.1.toNat < INF) :
    hmPressure W H obst cur nxt dist s =
      if (intendFold dist obst W H cur (dist cur.2.toNat cur.1.toNat)).1 ≠ cur ∧
          nxt = cur then
        { s with
          coll := bump s.coll
            (intendFold dist obst W H cur
              (dist cur.2.toNat cur.1.toNat)).1.2.toNat
            (intendFold dist obst W H cur
              (dist cur.2.toNat cur.1.toNat)).1.1.toNat,
          total_blocked := s.total_blocked + 1 }
      else s := by
  unfold hmPressure
  rw [if_neg (not_not_intro hin),
      if_neg (by simp [hfree] : ¬ obst cur.2.toNat cur.1.toNat = true),
      if_neg (by omega : ¬ INF ≤ dist cur.2.toNat cur.1.toNat)]

/-- C2: at a pre-reach timestep with an in-bounds, obstacle-free,
finite-distance current cell, the intended cell is the first neighbour in
the fixed order {(+1,0), (−1,0), (0,+1), (0,−1)} strictly closer to the goal;
with no strictly closer neighbour nothing is recorded; and when an intended
cell exists and the agent stays, `collision_map` is bumped at the intended
cell (which differs from the current cell) and `total_blocked` by one. -/
theorem C2_intention_blocking (W H : Nat) (obst : Nat → Nat → Bool)
    (paths : List (List (Int × Int))) (goals : List (Int × Int))
    (reach : List Nat) (t i : Nat) (s : HMState)
    (ht : t < reach.getD i 0)
    (hin : inb W H (pathPos paths t i))
    (hfree : obst (pathPos paths t i).2.toNat (pathPos paths t i).1.toNat = false)
    (hfin : bfs_dist obst H W (goals.getD i (0, 0))
        (pathPos paths t i).2.toNat (pathPos paths t i).1.toNat < INF) :
    ((intendFold (bfs_dist obst H W (goals.getD i (0, 0))) obst W H
        (pathPos paths t i)
        (bfs_dist obst H W (goals.getD i (0, 0))
          (pathPos paths t i).2.toNat (pathPos paths t i).1.toNat)).1 =
      (match firstStrictlyCloser (bfs_dist obst H W (goals.getD i (0, 0))) obst W H
          (pathPos paths t i)
          (bfs_dist obst H W (goals.getD i (0, 0))
            (pathPos paths t i).2.toNat (pathPos paths t i).1.toNat) with
        | none => pathPos paths t i
        | some nb => nb)) ∧
    (firstStrictlyCloser (bfs_dist obst H W (goals.getD i (0, 0))) obst W H
        (pathPos paths t i)
        (bfs_dist obst H W (goals.getD i (0, 0))
          (pathPos paths t i).2.toNat (pathPos paths t i).1.toNat) = none →
      (hmStep W H obst paths goals reach t i s).coll = s.coll ∧
      (hmStep W H obst paths goals reach t i s).total_blocked = s.total_blocked) ∧
    (∀ nb : Int × Int,
      firstStrictlyCloser (bfs_dist obst H W (goals.getD i (0, 0))) obst W H
          (pathPos paths t i)
          (bfs_dist obst H W (goals.getD i (0, 0))
            (pathPos paths t i).2.toNat (pathPos paths t i).1.toNat) = some nb →
      pathPos paths (t + 1) i = pathPos paths t i →
      nb ≠ pathPos paths t i ∧
      (hmStep W H obst paths goals reach t i s).coll =
        bump s.coll nb.2.toNat nb.1.toNat ∧
      (hmStep W H obst paths goals reach t i s).total_blocked =
        s.total_blocked + 1) := by
  have hfold := intendFold_bfs obst W H (goals.getD i (0, 0)) (pathPos paths t i)
    hin hfree
  have hstepEq : hmStep W H obst paths goals reach t i s =
      hmPressure W H obst (pathPos paths t i) (pathPos paths (t + 1) i)
        (bfs_dist obst H W (goals.getD i (0, 0)))
        (hmWait W H (pathPos paths t i) (pathPos paths (t + 1) i) s) := by
    unfold hmStep
    rw [if_neg (by omega)]
  have hwc := hmWait_coll W H (pathPos paths t i) (pathPos paths (t + 1) i) s
  have hpresEq := hmPressure_eq W H obst (pathPos paths t i)
    (pathPos paths (t + 1) i) (bfs_dist obst H W (goals.getD i (0, 0)))
    (hmWait W H (pathPos paths t i) (pathPos paths (t + 1) i) s) hin hfree hfin
  refine ⟨?_, ?_, ?_⟩
  · cases hFC : firstStrictlyCloser (bfs_dist obst H W (goals.getD i (0, 0)))
        obst W H (pathPos paths t i)
        (bfs_dist obst H W (goals.getD i (0, 0))
          (pathPos paths t i).2.toNat (pathPos paths t i).1.toNat) with
    | none =>
      rw [hFC] at hfold
      rw [hfold]
    | some nb =>
      rw [hFC] at hfold
      rw [hfold]
  · intro hFC
    rw [hFC] at hfold
    have hintend : (intendFold (bfs_dist obst H W (goals.getD i (0, 0))) obst W H
        (pathPos paths t i)
        (bfs_dist obst H W (goals.getD i (0, 0))
          (pathPos paths t i).2.toNat (pathPos paths t i).1.toNat)).1 =
        pathPos paths t i := by
      rw [hfold]
    rw [hstepEq, hpresEq, if_neg]
    · exact hwc
    · intro hcontra
      exact hcontra.1 hintend
  · intro nb hFC hstay
    obtain ⟨hne, _, _, _⟩ := firstStrictlyCloser_props _ _ _ _ _ _ _ hFC
    rw [hFC] at hfold
    have hintend : (intendFold (bfs_dist obst H W (goals.getD i (0, 0))) obst W H
        (pathPos paths t i)
        (bfs_dist obst H W (goals.getD i (0, 0))
          (pathPos paths t i).2.toNat (pathPos paths t i).1.toNat)).1 = nb := by
      rw [hfold]
    refine ⟨hne, ?_, ?_⟩
    · rw [hstepEq, hpresEq, if_pos ⟨by rw [hintend]; exact hne, hstay⟩]
      show bump (hmWait W H (pathPos paths t i) (pathPos paths (t + 1) i) s).coll
          _ _ = bump s.coll nb.2.toNat nb.1.toNat
      rw [hwc.1, hintend]
    · rw [hstepEq, hpresEq, if_pos ⟨by rw [hintend]; exact hne, hstay⟩]
      show (hmWait W H (pathPos paths t i) (pathPos paths (t + 1) i) s).total_blocked
          + 1 = s.total_blocked + 1
      rw [hwc.2]

/-- C4: the BFS distance field: an out-of-bounds or obstacle goal yields the
all-INF field without raising; on a valid goal the goal cell has distance 0,
every finite cell other than the goal has a free in-bounds 4-neighbour at
distance exactly one less, and every cell unreachable from the goal is INF. -/
theorem C4_bfs_dist_field (obst : Nat → Nat → Bool) (H W : Nat)
    (goal : Int × Int) :
    ((¬ (0 ≤ goal.1 ∧ goal.1 < (W : Int) ∧ 0 ≤ goal.2 ∧ goal.2 < (H : Int)) ∨
        obst goal.2.toNat goal.1.toNat = true) →
      ∀ y x, bfs_dist obst H W goal y x = INF) ∧
    ((0 ≤ goal.1 ∧ goal.1 < (W : Int) ∧ 0 ≤ goal.2 ∧ goal.2 < (H : Int)) →
      obst goal.2.toNat goal.1.toNat = false →
      (bfs_dist obst H W goal goal.2.toNat goal.1.toNat = 0 ∧
       (∀ y x, bfs_dist obst H W goal y x < INF →
          ¬(x = goal.1.toNat ∧ y = goal.2.toNat) →
          ∃ b : Nat × Nat, Adj (x, y) b ∧ b.1 < W ∧ b.2 < H ∧
            obst b.2 b.1 = false ∧
            bfs_dist obst H W goal b.2 b.1 + 1 = bfs_dist obst H W goal y x) ∧
       (∀ y x, ¬ Reach obst W H (goal.1.toNat, goal.2.toNat) (x, y) →
          bfs_dist obst H W goal y x = INF))) := by
  constructor
  · intro h y x
    by_cases hb : 0 ≤ goal.1 ∧ goal.1 < (W : Int) ∧ 0 ≤ goal.2 ∧ goal.2 < (H : Int)
    · have hobst : obst goal.2.toNat goal.1.toNat = true := by
        rcases h with h | h
        · exact absurd hb h
        · exact h
      rw [bfs_dist_goal_obst obst H W goal hb hobst]
    · rw [bfs_dist_oob obst H W goal hb]
  · intro hb hfree
    have hgx : goal.1.toNat < W := by omega
    have hgy : goal.2.toNat < H := by omega
    rw [bfs_dist_valid_eq obst H W goal hb hfree]
    refine ⟨bfsDistNat_pin obst W H goal.1.toNat goal.2.toNat hgx hgy hfree,
      ?_, ?_⟩
    · intro y x hfin hng
      exact bfsDistNat_pred obst W H goal.1.toNat goal.2.toNat hgx hgy hfree
        y x hfin hng
    · intro y x hnr
      exact bfsDistNat_unreach obst W H goal.1.toNat goal.2.toNat hgx hgy hfree
        y x hnr

/-- Check instance for C4 on a concrete 2×2 obstacle-free grid. -/
theorem C4_bfs_dist_field_witness :
    (0 ≤ ((0, 0) : Int × Int).1 ∧ ((0, 0) : Int × Int).1 < ((2 : Nat) : Int) ∧
      0 ≤ ((0, 0) : Int × Int).2 ∧ ((0, 0) : Int × Int).2 < ((2 : Nat) : Int)) ∧
    obstFree ((0, 0) : Int × Int).2.toNat ((0, 0) : Int × Int).1.toNat = false ∧
    bfs_dist obstFree 2 2 (0, 0) ((0, 0) : Int × Int).2.toNat
      ((0, 0) : Int × Int).1.toNat = 0 :=
  ⟨by decide, rfl,
    ((C4_bfs_dist_field obstFree 2 2 (0, 0)).2 (by decide) rfl).1⟩

/-- Check instance for C2 on the 3×3 scenario: at `t = 0` agent 1 sits at
`(0, 2)`, its first strictly closer neighbour towards `(0, 0)` is `(0, 1)`,
and since it stays in place the blocking-pressure counter advances by one. -/
theorem C2_intention_blocking_witness :
    (0 < (first_reach_times demoPaths demoGoals).getD 1 0 ∧
      inb 3 3 (pathPos demoPaths 0 1) ∧
      obstFree (pathPos demoPaths 0 1).2.toNat (pathPos demoPaths 0 1).1.toNat
        = false ∧
      bfs_dist obstFree 3 3 (demoGoals.getD 1 (0, 0))
        (pathPos demoPaths 0 1).2.toNat (pathPos demoPaths 0 1).1.toNat < INF) ∧
    ((0, 1) : Int × Int) ≠ pathPos demoPaths 0 1 ∧
    (hmStep 3 3 obstFree demoPaths demoGoals
        (first_reach_times demoPaths demoGoals) 0 1
        ⟨fun _ _ => 0, fun _ _ => 0, 0, 0⟩).total_blocked = 0 + 1 := by
  refine ⟨⟨by decide, by decide, rfl, by decide⟩, ?_, ?_⟩
  · have h := (C2_intention_blocking 3 3 obstFree demoPaths demoGoals
      (first_reach_times demoPaths demoGoals) 0 1
      ⟨fun _ _ => 0, fun _ _ => 0, 0, 0⟩
      (by decide) (by decide) rfl (by decide)).2.2 (0, 1) (by decide) (by decide)
    exact h.1
  · have h := (C2_intention_blocking 3 3 obstFree demoPaths demoGoals
      (first_reach_times demoPaths demoGoals) 0 1
      ⟨fun _ _ => 0, fun _ _ => 0, 0, 0⟩
      (by decide) (by decide) rfl (by decide)).2.2 (0, 1) (by decide) (by decide)
    exact h.2.2

theorem first_reach_length (paths : List (List (Int × Int)))
    (goals : List (Int × Int)) :
    (first_reach_times paths goals).length = num_agents paths := by
  unfold first_reach_times
  rw [List.length_map, List.length_range]

theorem first_reach_getD (paths : List (List (Int × Int)))
    (goals : List (Int × Int)) (i : Nat) (hi : i < num_agents paths) :
    (first_reach_times paths goals).getD i 0 =
      (match (List.range paths.length).find?
          (fun t => decide (pathPos paths t i = goals.getD i (0, 0))) with
        | some t => t
        | none => INF) := by
  have hlen : i < (first_reach_times paths goals).length := by
    rw [first_reach_length]; exact hi
  rw [List.getD_eq_getElem _ _ hlen]
  unfold first_reach_times
  simp only [List.getElem_map, List.getElem_range]

theorem first_reach_getD_lt_iff (paths : List (List (Int × Int)))
    (goals : List (Int × Int)) (hT : paths.length ≤ INF) (i : Nat)
    (hi : i < num_agents paths) :
    ((first_reach_times paths goals).getD i 0 < INF ↔
      ∃ t, t < paths.length ∧ pathPos paths t i = goals.getD i (0, 0)) := by
  rw [first_reach_getD paths goals i hi]
  cases hfind : (List.range paths.length).find?
      (fun t => decide (pathPos paths t i = goals.getD i (0, 0))) with
  | none =>
    show INF < INF ↔ _
    constructor
    · intro h
      exact absurd h (lt_irrefl _)
    · rintro ⟨t, ht, heq⟩
      have hnall := List.find?_eq_none.mp hfind t (List.mem_range.mpr ht)
      exact absurd (decide_eq_true heq) hnall
  | some t =>
    show t < INF ↔ _
    have hmem := List.mem_range.mp (List.mem_of_find?_eq_some hfind)
    have hp0 := List.find?_some hfind
    simp only [decide_eq_true_eq] at hp0
    have hp : pathPos paths t i = goals.getD i (0, 0) := hp0
    constructor
    · intro _
      exact ⟨t, hmem, hp⟩
    · intro _
      omega

theorem forall_mem_iff_getD {α : Type} (l : List α) (d : α) (P : α → Prop) :
    (∀ a ∈ l, P a) ↔ ∀ i, i < l.length → P (l.getD i d) := by
  constructor
  · intro h i hi
    rw [List.getD_eq_getElem l d hi]
    exact h _ (List.getElem_mem hi)
  · intro h a ha
    obtain ⟨i, hi, heq⟩ := List.mem_iff_getElem.mp ha
    have hP := h i hi
    rw [List.getD_eq_getElem l d hi, heq] at hP
    exact hP

/-- C1 (amended): `summarize_run_metrics` sets `solved = 1` iff every agent's
position equals its goal at SOME timestep of the trajectory (first-reach time
finite) AND the solver return code is 0, and `solved = 0` otherwise; reaching
the goal at the final timestep is not required. -/
theorem C1_solved_iff (H W : Nat) (paths : List (List (Int × Int)))
    (goals : List (Int × Int)) (wait coll : Nat → Nat → Nat) (rc : Int)
    (hT : paths.length ≤ INF) :
    ((summarize_run_metrics H W paths goals wait coll rc).solved = 1 ↔
      ((∀ i, i < num_agents paths →
          ∃ t, t < paths.length ∧ pathPos paths t i = goals.getD i (0, 0)) ∧
        rc = 0)) ∧
    ((summarize_run_metrics H W paths goals wait coll rc).solved = 0 ↔
      ¬((∀ i, i < num_agents paths →
          ∃ t, t < paths.length ∧ pathPos paths t i = goals.getD i (0, 0)) ∧
        rc = 0)) := by
  have hlen := first_reach_length paths goals
  have hkey : ((first_reach_times paths goals).countP
        (fun t => decide (t < INF)) = num_agents paths) ↔
      (∀ i, i < num_agents paths →
        ∃ t, t < paths.length ∧ pathPos paths t i = goals.getD i (0, 0)) := by
    constructor
    · intro hc i hi
      have hall : ∀ a ∈ first_reach_times paths goals,
          decide (a < INF) = true :=
        List.countP_eq_length.mp (hc.trans hlen.symm)
      have hgetd := (forall_mem_iff_getD (first_reach_times paths goals) 0
          (fun a => a < INF)).mp
        (fun a ha => of_decide_eq_true (hall a ha)) i (by rw [hlen]; exact hi)
      exact (first_reach_getD_lt_iff paths goals hT i hi).mp hgetd
    · intro hforall
      rw [← hlen]
      apply List.countP_eq_length.mpr
      intro a ha
      apply decide_eq_true
      revert a ha
      apply (forall_mem_iff_getD (first_reach_times paths goals) 0
        (fun a => a < INF)).mpr
      intro i hi
      rw [hlen] at hi
      exact (first_reach_getD_lt_iff paths goals hT i hi).mpr (hforall i hi)
  have hsolved : (summarize_run_metrics H W paths goals wait coll rc).solved =
      if (first_reach_times paths goals).countP (fun t => decide (t < INF)) =
          num_agents paths ∧ rc = 0 then 1 else 0 := rfl
  rw [hsolved]
  by_cases hcond : (first_reach_times paths goals).countP
      (fun t => decide (t < INF)) = num_agents paths ∧ rc = 0
  · rw [if_pos hcond]
    constructor
    · exact iff_of_true rfl ⟨hkey.mp hcond.1, hcond.2⟩
    · exact iff_of_false one_ne_zero (not_not_intro ⟨hkey.mp hcond.1, hcond.2⟩)
  · rw [if_neg hcond]
    constructor
    · refine iff_of_false zero_ne_one ?_
      intro hcontra
      exact hcond ⟨hkey.mpr hcontra.1, hcontra.2⟩
    · refine iff_of_true rfl ?_
      intro hcontra
      exact hcond ⟨hkey.mpr hcontra.1, hcontra.2⟩

/-- Counterexample input for C1 as frozen: one agent reaches its goal at
`t = 0` and moves away, so its position at the final timestep differs from
its goal, yet `solved = 1` with a clean return code. -/
theorem C1_counterexample :
    (summarize_run_metrics 1 1 [[(0, 0)], [(1, 0)]] [(0, 0)]
      (fun _ _ => 0) (fun _ _ => 0) 0).solved = 1 ∧
    pathPos [[(0, 0)], [(1, 0)]] (([[(0, 0)], [(1, 0)]] :
      List (List (Int × Int))).length - 1) 0 ≠ (0, 0) := by
  constructor
  · decide
  · decide

/-- Check instance for C1 on a solved single-agent run. -/
theorem C1_solved_iff_witness :
    ([[((0 : Int), (0 : Int))]] : List (List (Int × Int))).length ≤ INF ∧
    (summarize_run_metrics 1 1 [[(0, 0)]] [(0, 0)]
      (fun _ _ => 0) (fun _ _ => 0) 0).solved = 1 :=
  ⟨by decide,
    (C1_solved_iff 1 1 [[(0, 0)]] [(0, 0)] (fun _ _ => 0) (fun _ _ => 0) 0
      (by decide)).1.mpr ⟨by decide, rfl⟩⟩

/-!
## Sum invariants of the heatmap loops (C3, C8)
-/
theorem gridSum_zero (H W : Nat) : gridSum H W (fun _ _ => 0) = 0 := by
  simp [gridSum]

theorem hmWait_sums (W H : Nat) (cur nxt : Int × Int) (s : HMState)
    (hin : inb W H cur)
    (hw : gridSum H W s.wait = s.total_wait) :
    gridSum H W (hmWait W H cur nxt s).wait =
      (hmWait W H cur nxt s).total_wait := by
  unfold hmWait
  by_cases hstay : nxt = cur
  · rw [if_pos hstay, if_pos hin]
    show gridSum H W (bump s.wait cur.2.toNat cur.1.toNat) = s.total_wait + 1
    obtain ⟨h1, h2, h3, h4⟩ := hin
    rw [gridSum_bump H W s.wait cur.2.toNat cur.1.toNat (by omega) (by omega)]
    omega
  · rw [if_neg hstay]
    exact hw

theorem hmPressure_sums (W H : Nat) (obst : Nat → Nat → Bool)
    (cur nxt : Int × Int) (dist : Nat → Nat → Nat) (s : HMState)
    (hc : gridSum H W s.coll = s.total_blocked) :
    gridSum H W (hmPressure W H obst cur nxt dist s).coll =
        (hmPressure W H obst cur nxt dist s).total_blocked ∧
      (hmPressure W H obst cur nxt dist s).wait = s.wait ∧
      (hmPressure W H obst cur nxt dist s).total_wait = s.total_wait := by
  unfold hmPressure
  by_cases h1 : ¬ inb W H cur
  · rw [if_pos h1]
    exact ⟨hc, rfl, rfl⟩
  · rw [if_neg h1]
    by_cases h2 : obst cur.2.toNat cur.1.toNat = true
    · rw [if_pos h2]
      exact ⟨hc, rfl, rfl⟩
    · rw [if_neg h2]
      by_cases h3 : INF ≤ dist cur.2.toNat cur.1.toNat
      · rw [if_pos h3]
        exact ⟨hc, rfl, rfl⟩
      · rw [if_neg h3]
        by_cases h4 : (intendFold dist obst W H cur
            (dist cur.2.toNat cur.1.toNat)).1 ≠ cur ∧ nxt = cur
        · rw [if_pos h4]
          rcases intendFold_fst_cases dist obst W H cur
              (dist cur.2.toNat cur.1.toNat) with hcase | hcase
          · exact absurd hcase h4.1
          · obtain ⟨⟨a1, a2, a3, a4⟩, _⟩ := hcase
            refine ⟨?_, rfl, rfl⟩
            show gridSum H W (bump s.coll
              (intendFold dist obst W H cur
                (dist cur.2.toNat cur.1.toNat)).1.2.toNat
              (intendFold dist obst W H cur
                (dist cur.2.toNat cur.1.toNat)).1.1.toNat)
              = s.total_blocked + 1
            rw [gridSum_bump H W s.coll _ _ (by omega) (by omega)]
            omega
        · rw [if_neg h4]
          exact ⟨hc, rfl, rfl⟩

theorem hmStep_sums (W H : Nat) (obst : Nat → Nat → Bool)
    (paths : List (List (Int × Int))) (goals : List (Int × Int))
    (reach : List Nat) (t i : Nat) (s : HMState)
    (hin : inb W H (pathPos paths t i))
    (hw : gridSum H W s.wait = s.total_wait)
    (hc : gridSum H W s.coll = s.total_blocked) :
    gridSum H W (hmStep W H obst paths goals reach t i s).wait =
        (hmStep W H obst paths goals reach t i s).total_wait ∧
      gridSum H W (hmStep W H obst paths goals reach t i s).coll =
        (hmStep W H obst paths goals reach t i s).total_blocked := by
  unfold hmStep
  by_cases hreach : reach.getD i 0 ≤ t
  · rw [if_pos hreach]
    exact ⟨hw, hc⟩
  · rw [if_neg hreach]
    have hwc := hmWait_coll W H (pathPos paths t i) (pathPos paths (t + 1) i) s
    have hw1 := hmWait_sums W H (pathPos paths t i) (pathPos paths (t + 1) i)
      s hin hw
    set s1 := hmWait W H (pathPos paths t i) (pathPos paths (t + 1) i) s
      with hs1
    have hc1 : gridSum H W s1.coll = s1.total_blocked := by
      rw [hwc.1, hwc.2]
      exact hc
    have hp := hmPressure_sums W H obst (pathPos paths t i)
      (pathPos paths (t + 1) i) (bfs_dist obst H W (goals.getD i (0, 0)))
      s1 hc1
    refine ⟨?_, hp.1⟩
    rw [hp.2.1, hp.2.2]
    exact hw1

theorem foldl_invariant {α β : Type} (P : β → Prop) (f : β → α → β)
    (l : List α) (hstep : ∀ x ∈ l, ∀ b, P b → P (f b x)) :
    ∀ b, P b → P (l.foldl f b) := by
  induction l with
  | nil => intro b hb; exact hb
  | cons x l' ih =>
    intro b hb
    exact ih (fun x hx => hstep x (List.mem_cons_of_mem _ hx)) (f b x)
      (hstep x (List.mem_cons_self _ _) b hb)

/-- C3 (amended): for every run all of whose positions are in bounds, the
spatial sum of `wait_map` equals `total_wait` and the spatial sum of
`collision_map` equals `total_blocked`.  (For a run with an out-of-bounds
staying position the wait equality fails, see the counterexample: the
source increments `total_wait` outside the bounds check.) -/
theorem C3_sums (paths : List (List (Int × Int))) (goals : List (Int × Int))
    (H W : Nat) (obst : Nat → Nat → Bool)
    (hin : ∀ t, t < paths.length → ∀ i, i < (paths.getD 0 []).length →
      inb W H (pathPos paths t i)) :
    gridSum H W (computeCore paths goals H W obst).wait_map =
        (computeCore paths goals H W obst).total_wait ∧
      gridSum H W (computeCore paths goals H W obst).collision_map =
        (computeCore paths goals H W obst).total_blocked := by
  have hmain : gridSum H W (hmFold paths goals H W obst).wait =
      (hmFold paths goals H W obst).total_wait ∧
      gridSum H W (hmFold paths goals H W obst).coll =
      (hmFold paths goals H W obst).total_blocked := by
    unfold hmFold
    apply foldl_invariant
      (fun s : HMState => gridSum H W s.wait = s.total_wait ∧
        gridSum H W s.coll = s.total_blocked)
    · intro t htmem a ha
      apply foldl_invariant
        (fun s : HMState => gridSum H W s.wait = s.total_wait ∧
          gridSum H W s.coll = s.total_blocked)
      · intro i himem b hb
        have ht : t < paths.length := by
          have := List.mem_range.mp htmem
          omega
        have hi : i < (paths.getD 0 []).length := List.mem_range.mp himem
        exact hmStep_sums W H obst paths goals
          (first_reach_times paths goals) t i b (hin t ht i hi) hb.1 hb.2
      · exact ha
    · exact ⟨gridSum_zero H W, gridSum_zero H W⟩
  exact hmain

/-- Counterexample input for C3 as frozen: a single agent waiting at the
out-of-bounds position `(-1, 0)` bumps `total_wait` but not `wait_map`, so
the two disagree. -/
theorem C3_counterexample :
    compute_wait_collision_heatmaps [[(-1, 0)], [(-1, 0)]] [(0, 0)] 1 1 obstFree
        = Except.ok (computeCore [[(-1, 0)], [(-1, 0)]] [(0, 0)] 1 1 obstFree) ∧
      gridSum 1 1 (computeCore [[(-1, 0)], [(-1, 0)]] [(0, 0)] 1 1
        obstFree).wait_map = 0 ∧
      (computeCore [[(-1, 0)], [(-1, 0)]] [(0, 0)] 1 1 obstFree).total_wait
        = 1 := by
  refine ⟨rfl, ?_, ?_⟩
  · decide
  · decide

/-- Check instance for C3 on the 3×3 scenario. -/
theorem C3_sums_witness :
    (∀ t, t < demoPaths.length → ∀ i, i < (demoPaths.getD 0 []).length →
      inb 3 3 (pathPos demoPaths t i)) ∧
    gridSum 3 3 (computeCore demoPaths demoGoals 3 3 obstFree).wait_map =
      (computeCore demoPaths demoGoals 3 3 obstFree).total_wait :=
  ⟨by decide, (C3_sums demoPaths demoGoals 3 3 obstFree (by decide)).1⟩

theorem occStep_sum (W H : Nat) (paths : List (List (Int × Int)))
    (reach : List Nat) (t i : Nat) (occ : Nat → Nat → Nat)
    (hin : inb W H (pathPos paths t i)) :
    gridSum H W (occStep W H paths reach t i occ) =
      gridSum H W occ + (if t ≤ reach.getD i 0 then 1 else 0) := by
  unfold occStep
  by_cases hskip : reach.getD i 0 < t
  · rw [if_pos hskip, if_neg (by omega : ¬ t ≤ reach.getD i 0)]
    omega
  · rw [if_neg hskip, if_pos hin, if_pos (by omega : t ≤ reach.getD i 0)]
    obtain ⟨h1, h2, h3, h4⟩ := hin
    rw [gridSum_bump H W occ _ _ (by omega) (by omega)]

theorem occ_inner_sum (W H : Nat) (paths : List (List (Int × Int)))
    (reach : List Nat) (t : Nat) (l : List Nat)
    (hin : ∀ i ∈ l, inb W H (pathPos paths t i)) :
    ∀ occ, gridSum H W
        (l.foldl (fun a i => occStep W H paths reach t i a) occ) =
      gridSum H W occ + l.countP (fun i => decide (t ≤ reach.getD i 0)) := by
  induction l with
  | nil =>
    intro occ
    simp
  | cons i l' ih =>
    intro occ
    rw [List.foldl_cons,
      ih (fun j hj => hin j (List.mem_cons_of_mem _ hj)),
      occStep_sum W H paths reach t i occ (hin i (List.mem_cons_self _ _)),
      List.countP_cons]
    by_cases hcond : t ≤ reach.getD i 0 <;> simp [hcond] <;> omega

theorem occ_outer_sum (W H N : Nat) (paths : List (List (Int × Int)))
    (reach : List Nat) (lt : List Nat)
    (hin : ∀ t ∈ lt, ∀ i, i < N → inb W H (pathPos paths t i)) :
    ∀ occ, gridSum H W
        (lt.foldl (fun a t => (List.range N).foldl
          (fun a i => occStep W H paths reach t i a) a) occ) =
      gridSum H W occ +
        (lt.map (fun t => (List.range N).countP
          (fun i => decide (t ≤ reach.getD i 0)))).sum := by
  induction lt with
  | nil =>
    intro occ
    simp
  | cons t lt' ih =>
    intro occ
    rw [List.foldl_cons,
      ih (fun u hu => hin u (List.mem_cons_of_mem _ hu)),
      occ_inner_sum W H paths reach t (List.range N)
        (fun i hi => hin t (List.mem_cons_self _ _) i (List.mem_range.mp hi)),
      List.map_cons, List.sum_cons]
    omega

theorem list_range_map_sum (n : Nat) (f : Nat → Nat) :
    ((List.range n).map f).sum = ∑ t ∈ Finset.range n, f t := by
  induction n with
  | zero => simp
  | succ n ih =>
    rw [List.range_succ, List.map_append, List.sum_append,
      Finset.sum_range_succ, ih]
    simp

theorem countP_range_eq (n : Nat) (p : Nat → Bool) :
    (List.range n).countP p = ∑ i ∈ Finset.range n, if p i then 1 else 0 := by
  induction n with
  | zero => simp
  | succ n ih =>
    rw [List.range_succ, List.countP_append, Finset.sum_range_succ, ih]
    simp [List.countP_cons]

theorem sum_ind_min (T r : Nat) :
    (∑ t ∈ Finset.range T, if t ≤ r then 1 else 0) = min (r + 1) T := by
  induction T with
  | zero => simp
  | succ T ih =>
    rw [Finset.sum_range_succ, ih]
    by_cases h : T ≤ r <;> simp [h] <;> omega

/-- C8: for a run whose positions are all in bounds, the spatial sum of the
occupancy map equals the sum over agents of `min(reach_time + 1, T)`: one
count per timestep `t ≤ reach_time(agent)`, so never-reaching agents
contribute `T` and agents reaching at `r` contribute `r + 1`. -/
theorem C8_occupancy_sum (paths : List (List (Int × Int)))
    (goals : List (Int × Int)) (H W : Nat) (obst : Nat → Nat → Bool)
    (hin : ∀ t, t < paths.length → ∀ i, i < (paths.getD 0 []).length →
      inb W H (pathPos paths t i)) :
    gridSum H W (computeCore paths goals H W obst).occupancy_map =
      ∑ i ∈ Finset.range ((paths.getD 0 []).length),
        min ((first_reach_times paths goals).getD i 0 + 1) paths.length := by
  have h1 : (computeCore paths goals H W obst).occupancy_map =
      occFold paths goals H W := rfl
  rw [h1]
  unfold occFold
  rw [occ_outer_sum W H ((paths.getD 0 []).length) paths
    (first_reach_times paths goals) (List.range paths.length)
    (fun t ht i hi => hin t (List.mem_range.mp ht) i hi) (fun _ _ => 0)]
  rw [gridSum_zero, Nat.zero_add, list_range_map_sum]
  have hc : (∑ t ∈ Finset.range paths.length,
        (List.range ((paths.getD 0 []).length)).countP
          (fun i => decide (t ≤ (first_reach_times paths goals).getD i 0))) =
      ∑ t ∈ Finset.range paths.length,
        ∑ i ∈ Finset.range ((paths.getD 0 []).length),
          if t ≤ (first_reach_times paths goals).getD i 0 then 1 else 0 := by
    refine Finset.sum_congr rfl ?_
    intro t _
    rw [countP_range_eq]
    refine Finset.sum_congr rfl ?_
    intro i _
    simp
  rw [hc, Finset.sum_comm]
  refine Finset.sum_congr rfl ?_
  intro i _
  exact sum_ind_min paths.length ((first_reach_times paths goals).getD i 0)

/-- Check instance for C8 on the 3×3 scenario: agent 0 reaches at `t = 4`
(5 counts), agent 1 never reaches (5 counts), total 10. -/
theorem C8_occupancy_sum_witness :
    (∀ t, t < demoPaths.length → ∀ i, i < (demoPaths.getD 0 []).length →
      inb 3 3 (pathPos demoPaths t i)) ∧
    gridSum 3 3 (computeCore demoPaths demoGoals 3 3
      obstFree).occupancy_map = 10 :=
  ⟨by decide, by
    rw [C8_occupancy_sum demoPaths demoGoals 3 3 obstFree (by decide)]
    decide⟩

theorem wordsOfBytes_flat (ws : List Nat) (h : ∀ w ∈ ws, w < 2 ^ 32) :
    wordsOfBytes (ws.flatMap f32LEBytes) = ws := by
  induction ws with
  | nil => rfl
  | cons w rest ih =>
    have hw : w < 2 ^ 32 := h w (List.mem_cons_self _ _)
    have hrest := ih (fun u hu => h u (List.mem_cons_of_mem _ hu))
    show wordsOfBytes (f32LEBytes w ++ rest.flatMap f32LEBytes) = w :: rest
    show leWord (w % 256) (w / 256 % 256) (w / 65536 % 256) (w / 16777216 % 256)
        :: wordsOfBytes (rest.flatMap f32LEBytes) = w :: rest
    rw [hrest]
    have hword : leWord (w % 256) (w / 256 % 256) (w / 65536 % 256)
        (w / 16777216 % 256) = w := by
      unfold leWord
      omega
    rw [hword]

theorem flatMap_f32LEBytes_length (ws : List Nat) :
    (ws.flatMap f32LEBytes).length = 4 * ws.length := by
  induction ws with
  | nil => rfl
  | cons w rest ih =>
    show (f32LEBytes w ++ rest.flatMap f32LEBytes).length = 4 * (rest.length + 1)
    rw [List.length_append, ih]
    show 4 + 4 * rest.length = 4 * (rest.length + 1)
    ring

theorem flat_rows_length (p : List (List Nat)) (W : Nat)
    (hW : ∀ row ∈ p, row.length = W) :
    (p.flatMap id).length = p.length * W := by
  induction p with
  | nil => simp
  | cons row rest ih =>
    show (row ++ rest.flatMap id).length = (rest.length + 1) * W
    rw [List.length_append, hW row (List.mem_cons_self _ _),
      ih (fun r hr => hW r (List.mem_cons_of_mem _ hr))]
    ring

theorem flat_rows_getD (p : List (List Nat)) (W : Nat)
    (hW : ∀ row ∈ p, row.length = W) (y x : Nat) (hy : y < p.length)
    (hx : x < W) :
    (p.flatMap id).getD (y * W + x) 0 = (p.getD y []).getD x 0 := by
  induction p generalizing y with
  | nil => exact absurd hy (Nat.not_lt_zero _)
  | cons row rest ih =>
    cases y with
    | zero =>
      have h0 : 0 * W + x = x := by omega
      rw [h0]
      show (row ++ rest.flatMap id).getD x 0 = row.getD x 0
      exact List.getD_append row (rest.flatMap id) 0 x
        (by rw [hW row (List.mem_cons_self _ _)]; exact hx)
    | succ y' =>
      have hrow : row.length = W := hW row (List.mem_cons_self _ _)
      have hoff : (y' + 1) * W + x = row.length + (y' * W + x) := by
        rw [hrow]; ring
      show (row ++ rest.flatMap id).getD ((y' + 1) * W + x) 0 =
        (rest.getD y' []).getD x 0
      rw [hoff, List.getD_append_right row (rest.flatMap id) 0 _
        (Nat.le_add_right _ _), Nat.add_sub_cancel_left]
      exact ih (fun r hr => hW r (List.mem_cons_of_mem _ hr)) y'
        (by simpa using hy)

theorem reshape_flat (p : List (List Nat)) (H W : Nat)
    (hH : p.length = H) (hW : ∀ row ∈ p, row.length = W) :
    reshape H W (p.flatMap id) = p := by
  unfold reshape
  apply List.ext_getElem
  · rw [List.length_map, List.length_range, hH]
  · intro y h1 h2
    simp only [List.getElem_map, List.getElem_range]
    apply List.ext_getElem
    · rw [List.length_map, List.length_range]
      exact (hW _ (List.getElem_mem h2)).symm
    · intro x hx1 hx2
      simp only [List.getElem_map, List.getElem_range]
      have hy : y < p.length := h2
      have hxW : x < W := by
        rw [List.length_map, List.length_range] at hx1
        exact hx1
      rw [flat_rows_getD p W hW y x hy hxW,
        List.getD_eq_getElem p [] hy,
        List.getD_eq_getElem _ 0 (by rw [hW _ (List.getElem_mem hy)]; exact hxW)]

theorem f32Eq_self (w : Nat) (h : f32IsFinite w) : f32Eq w w = true := by
  unfold f32Eq f32IsNaN
  have hexp : decide (f32Exp w = 255) = false := decide_eq_false h
  rw [hexp]
  simp

theorem allcloseExact_self (xs : List Nat) (h : ∀ w ∈ xs, f32IsFinite w) :
    allcloseExact xs xs = true := by
  unfold allcloseExact
  rw [List.all_eq_true]
  intro ab hab
  have := List.of_mem_zip hab
  have heq : ab.1 = ab.2 := by
    clear this
    induction xs with
    | nil => exact absurd hab (List.not_mem_nil _)
    | cons w rest ih =>
      rcases List.mem_cons.mp hab with h1 | h1
      · rw [h1]
      · exact ih (fun u hu => h u (List.mem_cons_of_mem _ hu)) h1
  rw [heq]
  exact f32Eq_self ab.2 (by
    rw [← heq]
    exact h ab.1 this.1)

theorem fsReadBin_exportFS (fs : FS) (p : List (List Nat)) (H W : Nat) :
    fsReadBin (exportFS fs p H W) "heatmap.f32.bin" = tobytesRows p := rfl

theorem export_one_none_fst (fs : FS) (p : List (List Nat)) :
    (export_one fs p none).1 = exportFS fs p p.length (p.headD []).length := by
  unfold export_one exportWrite
  split_ifs <;> rfl

/-- C5: exporting a finite-valued H×W float32 array and reading the binary
back yields a bit-identical array, the written binary has byte length
H×W×4, and `export_one`'s own round-trip verification succeeds. -/
theorem C5_export_roundtrip (fs : FS) (p : List (List Nat)) (H W : Nat)
    (hH : p.length = H) (hW : ∀ row ∈ p, row.length = W)
    (hword : ∀ row ∈ p, ∀ w ∈ row, w < 2 ^ 32)
    (hfin : ∀ row ∈ p, ∀ w ∈ row, f32IsFinite w) :
    (tobytesRows p).length = H * W * 4 ∧
    reshape H W (wordsOfBytes (tobytesRows p)) = p ∧
    (export_one fs p none).2 = Except.ok () := by
  have hflatword : ∀ w ∈ p.flatMap id, w < 2 ^ 32 := by
    intro w hw
    rcases List.mem_flatMap.mp hw with ⟨row, hrow, hwrow⟩
    exact hword row hrow w hwrow
  have hflatfin : ∀ w ∈ p.flatMap id, f32IsFinite w := by
    intro w hw
    rcases List.mem_flatMap.mp hw with ⟨row, hrow, hwrow⟩
    exact hfin row hrow w hwrow
  have hwords : wordsOfBytes (tobytesRows p) = p.flatMap id :=
    wordsOfBytes_flat (p.flatMap id) hflatword
  have hlen : (tobytesRows p).length = H * W * 4 := by
    unfold tobytesRows
    rw [flatMap_f32LEBytes_length, flat_rows_length p W hW, hH]
    ring
  have hW' : ∀ row ∈ p, row.length = (p.headD []).length := by
    intro row hrow
    cases p with
    | nil => exact absurd hrow (List.not_mem_nil _)
    | cons r rest =>
      show row.length = r.length
      rw [hW row hrow, hW r (List.mem_cons_self _ _)]
  refine ⟨hlen, ?_, ?_⟩
  · rw [hwords]
    exact reshape_flat p H W hH hW
  · show (exportWrite fs p p.length (p.headD []).length).2 = Except.ok ()
    unfold exportWrite
    rw [fsReadBin_exportFS, hwords]
    rw [if_neg (by
      rw [flat_rows_length p ((p.headD []).length) hW']
      omega)]
    rw [if_pos]
    rw [reshape_flat p p.length ((p.headD []).length) rfl hW']
    exact allcloseExact_self (p.flatMap id) hflatfin

/-- Check instance for C5 on a 1×2 array of finite float32 values
(1.0f = 0x3F800000 and 2.5f = 0x40200000). -/
theorem C5_export_roundtrip_witness :
    (([[1065353216, 1075838976]] : List (List Nat)).length = 1 ∧
      ∀ row ∈ ([[1065353216, 1075838976]] : List (List Nat)),
        row.length = 2) ∧
    (export_one [] [[1065353216, 1075838976]] none).2 = Except.ok () :=
  ⟨⟨rfl, by decide⟩,
    (C5_export_roundtrip [] [[1065353216, 1075838976]] 1 2 rfl (by decide)
      (by decide) (by decide)).2.2⟩

/-- Counterexample input for C6 as frozen: a 1×1 array holding the quiet-NaN
pattern 0x7FC00000 fails `np.allclose(rtol=0, atol=0)` (NaN ≠ NaN), so the
round-trip verification raises — yet both `heatmap.f32.bin` and
`heatmap.meta.json` are already published at their destination paths,
because the source writes the final paths before verifying. -/
theorem C6_counterexample :
    (export_one [] [[2143289344]] none).2 =
        Except.error "roundtrip verification failed" ∧
      fsLookup (export_one [] [[2143289344]] none).1 "heatmap.f32.bin" =
        some (FSContent.bin (tobytesRows [[2143289344]])) ∧
      fsLookup (export_one [] [[2143289344]] none).1 "heatmap.meta.json" =
        some (FSContent.metaJson 1 1) := by
  refine ⟨?_, ?_, ?_⟩ <;> rfl

/-- C6 (amended): when the round-trip verification fails, `export_one`
raises fatally, but the already-written `heatmap.f32.bin` and
`heatmap.meta.json` REMAIN at the destination paths: the source writes the
final artifacts first and verifies only afterwards (no temporary
location). -/
theorem C6_artifacts_persist (fs : FS) (p : List (List Nat)) (m : String)
    (herr : (export_one fs p none).2 = Except.error m) :
    fsLookup (export_one fs p none).1 "heatmap.f32.bin" =
        some (FSContent.bin (tobytesRows p)) ∧
      fsLookup (export_one fs p none).1 "heatmap.meta.json" =
        some (FSContent.metaJson p.length (p.headD []).length) := by
  rw [export_one_none_fst]
  exact ⟨rfl, rfl⟩

/-- Check instance for C6 on the NaN input. -/
theorem C6_artifacts_persist_witness :
    (export_one [] [[2143289344]] none).2 =
        Except.error "roundtrip verification failed" ∧
      fsLookup (export_one [] [[2143289344]] none).1 "heatmap.f32.bin" =
        some (FSContent.bin (tobytesRows [[2143289344]])) :=
  ⟨rfl,
    (C6_artifacts_persist [] [[2143289344]] "roundtrip verification failed"
      rfl).1⟩

theorem parseLoop_cons_skip (e : Option Nat) (ln : List Char)
    (rest : List (List Char)) (h : lineAccept ln = none) :
    parseLoop e (ln :: rest) = parseLoop e rest := by
  show (match lineAccept ln with
    | none => parseLoop e rest
    | some (t, xy) =>
      match e with
      | some n =>
        if xy.length ≠ n then
          Except.error (ParseErr.agentCountMismatch t xy.length n)
        else (parseLoop e rest).map (fun acc => (t, xy) :: acc)
      | none => (parseLoop e rest).map (fun acc => (t, xy) :: acc)) =
    parseLoop e rest
  rw [h]

theorem parseLoop_cons_acc (n : Nat) (ln : List Char)
    (rest : List (List Char)) (t : Nat) (xy : List (Int × Int))
    (h : lineAccept ln = some (t, xy)) :
    parseLoop (some n) (ln :: rest) =
      if xy.length ≠ n then
        Except.error (ParseErr.agentCountMismatch t xy.length n)
      else (parseLoop (some n) rest).map (fun acc => (t, xy) :: acc) := by
  show (match lineAccept ln with
    | none => parseLoop (some n) rest
    | some (t, xy) =>
      match (some n : Option Nat) with
      | some n =>
        if xy.length ≠ n then
          Except.error (ParseErr.agentCountMismatch t xy.length n)
        else (parseLoop (some n) rest).map (fun acc => (t, xy) :: acc)
      | none => (parseLoop (some n) rest).map (fun acc => (t, xy) :: acc)) = _
  rw [h]

/-- C7 (amended): the agent-count validation runs per accepted line DURING
the collection loop, while the strictly-increasing-timesteps validation runs
only after it; hence on input whose accepted prefix is count-consistent but
whose next accepted line has a mismatching pair count, `parse_output_txt`
raises the agent-count mismatch (reporting that line's timestep), regardless
of any non-increasing timesteps among the earlier accepted lines — the
opposite priority from the spec's order (a) before (b). -/
theorem C7_count_mismatch_first (pre post : List (List Char)) (ln : List Char)
    (t : Nat) (xy : List (Int × Int)) (n : Nat)
    (hpre : ∀ l ∈ pre, ∀ t' xy', lineAccept l = some (t', xy') →
      xy'.length = n)
    (hln : lineAccept ln = some (t, xy))
    (hmm : xy.length ≠ n) :
    parse_output_txt (pre ++ ln :: post) (some n) =
      Except.error (ParseErr.agentCountMismatch t xy.length n) := by
  have hloop : parseLoop (some n) (pre ++ ln :: post) =
      Except.error (ParseErr.agentCountMismatch t xy.length n) := by
    induction pre with
    | nil =>
      rw [List.nil_append, parseLoop_cons_acc n ln post t xy hln, if_pos hmm]
    | cons l pre' ih =>
      have hih := ih (fun l' hl' => hpre l' (List.mem_cons_of_mem _ hl'))
      rw [List.cons_append]
      cases hacc : lineAccept l with
      | none =>
        rw [parseLoop_cons_skip (some n) l _ hacc]
        exact hih
      | some pr =>
        obtain ⟨t', xy'⟩ := pr
        have hlen : xy'.length = n :=
          hpre l (List.mem_cons_self _ _) t' xy' hacc
        rw [parseLoop_cons_acc n l _ t' xy' hacc, if_neg (by omega), hih]
        rfl
  unfold parse_output_txt
  rw [hloop]

/-- Counterexample input for C7 as frozen: on `c7Lines` with expected count 1
both violations are present (with no expected count the non-increasing pair
0,0 among accepted lines is what `parse_output_txt` reports), yet with the
expected count supplied the error raised is the agent-count mismatch at
`t = 1`, not the strictly-increasing violation. -/
theorem C7_counterexample :
    parseLoop none c7Lines =
        Except.ok [(0, [(0, 0)]), (0, [(0, 0)]), (1, [(0, 0), (1, 1)])] ∧
      parse_output_txt c7Lines none =
        Except.error (ParseErr.nonIncreasing 0 0) ∧
      parse_output_txt c7Lines (some 1) =
        Except.error (ParseErr.agentCountMismatch 1 2 1) := by
  refine ⟨?_, ?_, ?_⟩ <;> rfl

/-- Check instance for C7 on the same input. -/
theorem C7_count_mismatch_first_witness :
    lineAccept ("1:(0,0),(1,1)".toList) = some (1, [(0, 0), (1, 1)]) ∧
    parse_output_txt c7Lines (some 1) =
      Except.error (ParseErr.agentCountMismatch 1 2 1) := by
  refine ⟨rfl, ?_⟩
  have hpre : ∀ l ∈ (["0:(0,0)", "0:(0,0)"].map String.toList), ∀ t' xy',
      lineAccept l = some (t', xy') → xy'.length = 1 := by
    intro l hl t' xy' hacc
    have hls : l = "0:(0,0)".toList := by
      rcases List.mem_map.mp hl with ⟨sv, hsv, hrfl⟩
      rcases List.mem_cons.mp hsv with h | h
      · rw [← hrfl, h]
      · rcases List.mem_cons.mp h with h2 | h2
        · rw [← hrfl, h2]
        · exact absurd h2 (List.not_mem_nil _)
    rw [hls] at hacc
    rw [show lineAccept ("0:(0,0)".toList) = some (0, [(0, 0)]) from rfl]
      at hacc
    injection hacc with hpair
    have hxy : ((0 : Nat), ([(0, 0)] : List (Int × Int))).2 = xy' :=
      congrArg Prod.snd hpair
    rw [← hxy]
    rfl
  exact C7_count_mismatch_first (["0:(0,0)", "0:(0,0)"].map String.toList)
    [] ("1:(0,0),(1,1)".toList) 1 [(0, 0), (1, 1)] 1 hpre rfl (by decide)

theorem addArrays_eq_add (a b : RunArrays) : addArrays a b = a + b := rfl

theorem foldl_add_eq_sum {M : Type} [AddCommMonoid M] (l : List M) :
    ∀ z : M, l.foldl (fun a b => a + b) z = z + l.sum := by
  induction l with
  | nil =>
    intro z
    simp
  | cons a l' ih =>
    intro z
    rw [List.foldl_cons, ih (z + a), List.sum_cons, add_assoc]

/-- C9: folding a fixed set of per-run integer arrays into the aggregate
sums in any permutation of the runs, or via any two-part partitioned
reduction, yields identical `wait_sum`/`pressure_sum`/`occ_sum` arrays:
the per-cell reduction is int64 addition, which is commutative and
associative. -/
theorem C9_fold_order_independent (l l' l1 l2 : List RunArrays)
    (hp : l.Perm l') :
    foldRuns l = foldRuns l' ∧
      foldRuns (l1 ++ l2) = addArrays (foldRuns l1) (foldRuns l2) := by
  have hfold : ∀ m : List RunArrays, foldRuns m = m.sum := by
    intro m
    unfold foldRuns
    have hz : ((fun _ _ => 0, fun _ _ => 0, fun _ _ => 0) : RunArrays) = 0 :=
      rfl
    have haddfun : addArrays = (fun a b : RunArrays => a + b) :=
      funext (fun a => funext (fun b => addArrays_eq_add a b))
    calc m.foldl addArrays (fun _ _ => 0, fun _ _ => 0, fun _ _ => 0)
        = m.foldl (fun a b => a + b) 0 := by rw [hz, haddfun]
      _ = 0 + m.sum := foldl_add_eq_sum m 0
      _ = m.sum := zero_add _
  constructor
  · rw [hfold l, hfold l', hp.sum_eq]
  · rw [hfold (l1 ++ l2), hfold l1, hfold l2, addArrays_eq_add,
      List.sum_append]

theorem addRun_solved_cnt_comm (s : AggState) (c : Nat) (r : RunNpz) :
    addRun { s with solved_cnt := c } r = { addRun s r with solved_cnt := c } :=
  rfl

theorem aggLoop_cons_none (o : Bool) (H W : Nat) (r : RunNpz)
    (rs : List RunNpz) (s : AggState) (h : r.meta = none) :
    aggLoop o H W (r :: rs) s =
      if r.Hnpz ≠ H ∨ r.Wnpz ≠ W then Except.error "Shape mismatch"
      else aggLoop o H W rs (addRun s r) := by
  show (match r.meta with
    | some solved =>
      if o && !solved then
        aggLoop o H W rs
          (if solved then { s with solved_cnt := s.solved_cnt + 1 } else s)
      else if r.Hnpz ≠ H ∨ r.Wnpz ≠ W then Except.error "Shape mismatch"
      else aggLoop o H W rs
        (addRun (if solved then { s with solved_cnt := s.solved_cnt + 1 }
          else s) r)
    | none =>
      if r.Hnpz ≠ H ∨ r.Wnpz ≠ W then Except.error "Shape mismatch"
      else aggLoop o H W rs (addRun s r)) = _
  rw [h]

theorem aggLoop_cons_some (o : Bool) (H W : Nat) (r : RunNpz)
    (rs : List RunNpz) (s : AggState) (b : Bool) (h : r.meta = some b) :
    aggLoop o H W (r :: rs) s =
      if o && !b then
        aggLoop o H W rs
          (if b then { s with solved_cnt := s.solved_cnt + 1 } else s)
      else if r.Hnpz ≠ H ∨ r.Wnpz ≠ W then Except.error "Shape mismatch"
      else aggLoop o H W rs
        (addRun (if b then { s with solved_cnt := s.solved_cnt + 1 }
          else s) r) := by
  show (match r.meta with
    | some solved =>
      if o && !solved then
        aggLoop o H W rs
          (if solved then { s with solved_cnt := s.solved_cnt + 1 } else s)
      else if r.Hnpz ≠ H ∨ r.Wnpz ≠ W then Except.error "Shape mismatch"
      else aggLoop o H W rs
        (addRun (if solved then { s with solved_cnt := s.solved_cnt + 1 }
          else s) r)
    | none =>
      if r.Hnpz ≠ H ∨ r.Wnpz ≠ W then Except.error "Shape mismatch"
      else aggLoop o H W rs (addRun s r)) = _
  rw [h]

/-- C10: the `only_solved` filter and the solved counter are consulted only
when a run's `.meta.json` sidecar exists: the loop result is exactly the fold
of `addRun` over the runs kept by `keepRun` — which keeps every
sidecar-missing run regardless of `only_solved` — with `solved_cnt` advanced
only by runs whose sidecar exists and reports solved.  Hence
`solved_rate = solved_cnt / num_instances_total` undercounts whenever
sidecars are missing for solved runs. -/
theorem C10_missing_sidecar (onlySolved : Bool) (H W : Nat)
    (runs : List RunNpz)
    (hsh : ∀ r ∈ runs, r.Hnpz = H ∧ r.Wnpz = W) :
    (∀ s0 : AggState,
      aggLoop onlySolved H W runs s0 =
        Except.ok ((runs.filter (keepRun onlySolved)).foldl addRun
          { s0 with solved_cnt := s0.solved_cnt +
              runs.countP (fun r => r.meta == some true) })) ∧
    (∀ r : RunNpz, r.meta = none →
      keepRun onlySolved r = true ∧ (r.meta == some true) = false) := by
  constructor
  · induction runs with
    | nil =>
      intro s0
      rfl
    | cons r rs ih =>
      intro s0
      obtain ⟨he1, he2⟩ := hsh r (List.mem_cons_self _ _)
      have hshape : ¬(r.Hnpz ≠ H ∨ r.Wnpz ≠ W) := by omega
      have ih' := ih (fun r' hr' => hsh r' (List.mem_cons_of_mem _ hr'))
      cases hmeta : r.meta with
      | none =>
        rw [aggLoop_cons_none onlySolved H W r rs s0 hmeta, if_neg hshape,
          ih' (addRun s0 r)]
        have hkeep : keepRun onlySolved r = true := by
          unfold keepRun
          rw [hmeta]
        have hcnt : (r :: rs).countP (fun u => u.meta == some true) =
            rs.countP (fun u => u.meta == some true) := by
          rw [List.countP_cons]
          simp [hmeta]
        rw [List.filter_cons_of_pos hkeep, hcnt, List.foldl_cons]
        rfl
      | some b =>
        rw [aggLoop_cons_some onlySolved H W r rs s0 b hmeta]
        cases b with
        | false =>
          have hcnt : (r :: rs).countP (fun u => u.meta == some true) =
              rs.countP (fun u => u.meta == some true) := by
            rw [List.countP_cons]
            simp [hmeta]
          cases honly : onlySolved with
          | true =>
            rw [honly] at ih'
            show aggLoop true H W rs s0 = _
            have hkeep : ¬ keepRun true r = true := by
              simp [keepRun, hmeta]
            rw [ih' s0, List.filter_cons_of_neg hkeep, hcnt]
          | false =>
            rw [honly] at ih'
            show (if r.Hnpz ≠ H ∨ r.Wnpz ≠ W
                then (Except.error "Shape mismatch" : Except String AggState)
                else aggLoop false H W rs (addRun s0 r)) = _
            have hkeep : keepRun false r = true := by
              simp [keepRun, hmeta]
            rw [if_neg hshape, ih' (addRun s0 r),
              List.filter_cons_of_pos hkeep, hcnt, List.foldl_cons]
            rfl
        | true =>
          rw [show (onlySolved && !true) = false from by simp]
          show (if r.Hnpz ≠ H ∨ r.Wnpz ≠ W
              then (Except.error "Shape mismatch" : Except String AggState)
              else aggLoop onlySolved H W rs
                (addRun { s0 with solved_cnt := s0.solved_cnt + 1 } r)) = _
          have hkeep : keepRun onlySolved r = true := by
            simp [keepRun, hmeta]
          have hcnt : (r :: rs).countP (fun u => u.meta == some true) =
              rs.countP (fun u => u.meta == some true) + 1 := by
            rw [List.countP_cons]
            simp [hmeta]
          rw [if_neg hshape,
            ih' (addRun { s0 with solved_cnt := s0.solved_cnt + 1 } r),
            List.filter_cons_of_pos hkeep, hcnt, List.foldl_cons]
          exact congrArg (fun c => Except.ok ((rs.filter
              (keepRun onlySolved)).foldl addRun
              { addRun s0 r with solved_cnt := c }))
            (by omega :
              s0.solved_cnt + 1 + rs.countP (fun u => u.meta == some true) =
              s0.solved_cnt + (rs.countP (fun u => u.meta == some true) + 1))
  · intro r hr
    constructor
    · unfold keepRun
      rw [hr]
    · rw [hr]
      rfl

/-- Check instance for C10: with `only_solved` enabled, the sidecar-missing
run is still folded in (`used = 1`) and never counted solved
(`solved_cnt = 0`). -/
theorem C10_missing_sidecar_witness :
    (∀ r ∈ [runNoMeta], r.Hnpz = 1 ∧ r.Wnpz = 1) ∧
    (aggLoop true 1 1 [runNoMeta] aggInit0).map
      (fun s => (s.solved_cnt, s.used)) = Except.ok (0, 1) := by
  refine ⟨by decide, ?_⟩
  rw [(C10_missing_sidecar true 1 1 [runNoMeta] (by decide)).1 aggInit0]
  rfl

/-- Check instance for C9: swapping two runs leaves the sums unchanged. -/
theorem C9_fold_order_independent_witness :
    foldRuns [arrA, arrB] = foldRuns [arrB, arrA] :=
  (C9_fold_order_independent [arrA, arrB] [arrB, arrA] [] []
    (List.Perm.swap arrB arrA [])).1

end TRM
